import Mathlib

/-!
# go-bootstrap: the tree rewriter and the bootstrap pipeline

A shallow embedding of `main.go`.

* Go strings and byte slices are lists of bytes.
* The file system is a table from paths to nodes together with the contents of the inodes:
  two names of one inode (hard links) share one content, and a symbolic link is a node of its
  own that names a path. It is threaded explicitly through every operation, together with the
  list of `ReadFile` and `WriteFile` calls made so far. Nothing but the program changes it
  while the program runs.
* A Go `error` is an `Option Errno` (`none` is `nil`); a run-time panic is an outcome of its
  own.
* A Go map is seen through `range`: the entries in the order one `range` statement yields
  them, an order Go leaves open and lets differ between two statements.
* The library functions the program calls (`bytes.Replace`, `strings.Split`, `os.Stat`,
  `ioutil.ReadFile`, `ioutil.WriteFile`, `filepath.Walk`, `filepath.Join`) follow their
  documented behaviour. A read fails on opening the file. A write fails either on opening the
  file, which is then left as it is, or after the file has been truncated, which then holds
  what was written before the failure. A read that blocks is not modelled.
* The functions of `main.go` are translated statement by statement. The commands `main`
  starts are answered by the environment.
-/

namespace GoBootstrap

/-! ## Byte strings -/

/-- A Go `string` or `[]byte`: a sequence of bytes, not necessarily valid UTF-8. -/
abbrev Bytes := List UInt8

/-- The bytes of an ASCII literal. -/
def ascii (s : String) : Bytes := s.toList.map (fun c => c.toNat.toUInt8)

/-- The width in bytes of the first UTF-8 sequence of `s`, as `utf8.DecodeRune` reports it:
`0` on empty input, `1` for ASCII and for every invalid or truncated sequence. -/
def runeWidth : Bytes → Nat
  | [] => 0
  | b0 :: rest =>
    if b0 < 0xC2 then 1
    else if b0 < 0xE0 then
      match rest with
      | b1 :: _ => if 0x80 ≤ b1 ∧ b1 ≤ 0xBF then 2 else 1
      | _ => 1
    else if b0 < 0xF0 then
      let lo : UInt8 := if b0 = 0xE0 then 0xA0 else 0x80
      let hi : UInt8 := if b0 = 0xED then 0x9F else 0xBF
      match rest with
      | b1 :: b2 :: _ => if lo ≤ b1 ∧ b1 ≤ hi ∧ 0x80 ≤ b2 ∧ b2 ≤ 0xBF then 3 else 1
      | _ => 1
    else if b0 < 0xF5 then
      let lo : UInt8 := if b0 = 0xF0 then 0x90 else 0x80
      let hi : UInt8 := if b0 = 0xF4 then 0x8F else 0xBF
      match rest with
      | b1 :: b2 :: b3 :: _ =>
        if lo ≤ b1 ∧ b1 ≤ hi ∧ 0x80 ≤ b2 ∧ b2 ≤ 0xBF ∧ 0x80 ≤ b3 ∧ b3 ≤ 0xBF then 4 else 1
      | _ => 1
    else 1

/-- The index of the first instance of `sep` in `s` (`bytes.Index`), `none` for Go's `-1`. -/
def bytesIndex : Bytes → Bytes → Option Nat
  | [], sep => if sep = [] then some 0 else none
  | c :: cs, sep =>
    if sep.isPrefixOf (c :: cs) then some 0 else (bytesIndex cs sep).map (· + 1)

/-- The replacement loop of `bytes.Replace` for a non-empty `old` and `n < 0`: find the next
instance of `old` from the current start, copy what precedes it, copy `new`, and continue
behind the instance; when there is no further instance copy the rest. One unit of `fuel` is
one iteration of the loop. -/
def replaceLoop (old new : Bytes) : Nat → Bytes → Bytes
  | 0, s => s
  | fuel + 1, s =>
    match bytesIndex s old with
    | none => s
    | some j => s.take j ++ new ++ replaceLoop old new fuel (s.drop (j + old.length))

/-- The replacement loop of `bytes.Replace` for an empty `old`, after its first iteration: copy
one UTF-8 sequence, copy `new`, and continue behind the sequence. -/
def insertAfterRunes (new : Bytes) : Nat → Bytes → Bytes
  | 0, s => s
  | _ + 1, [] => []
  | fuel + 1, c :: cs =>
    (c :: cs).take (runeWidth (c :: cs)) ++ new
      ++ insertAfterRunes new fuel ((c :: cs).drop (runeWidth (c :: cs)))

/-- The call `bytes.Replace(s, old, new, -1)`: a copy of `s` with all non-overlapping
instances of `old` replaced by `new`, scanning from the left. An empty `old` matches at the
beginning of the slice and after each UTF-8 sequence. -/
def bytesReplace (s old new : Bytes) : Bytes :=
  if old = [] then new ++ insertAfterRunes new s.length s
  else replaceLoop old new s.length s

/-! ## The file system -/

/-- The type of a directory entry, as the type bits of its `os.FileMode` give it. -/
inductive Kind where
  | regular
  | dir
  | symlink
  | device
  | pipe
  | socket
  deriving DecidableEq, Repr

/-- The errors of the file system calls, and the sentinel `filepath.SkipDir`. -/
inductive Errno where
  | ENOENT
  | EACCES
  | ELOOP
  | EISDIR
  | ENOTDIR
  | ENXIO
  | ENOSPC
  | EIO
  | SkipDir
  deriving DecidableEq, Repr

/-- What the file system holds under one name. `ino` is the inode the name stands for: the
content read and written under the name is the content of that inode, shared with every other
name of the same inode. `names` is the listing of a directory; `target` is the path a
symbolic link points to. `readErr`, when set, makes opening the entry for reading (or listing
it) fail. `writeErr`, when set, makes opening the entry for writing fail, the content being
left as it is. `writeLimit = some (k, e)` makes a write of more than `k` bytes fail with `e`
after the entry was truncated and `k` bytes were written (a full disk, an I/O error). -/
structure Node where
  kind : Kind
  perm : Nat
  ino : Nat
  names : List Bytes
  target : Bytes
  readErr : Option Errno
  writeErr : Option Errno
  writeLimit : Option (Nat × Errno)
  deriving DecidableEq, Repr

/-- The names of the file system: a table from paths to nodes (the first row of a path
counts). -/
abbrev Table := List (Bytes × Node)

/-- The file system: its names, and the content of each inode (the first row of an inode
counts; an inode without a row is empty). -/
structure FS where
  rows : Table
  data : List (Nat × Bytes)
  deriving DecidableEq, Repr

/-- The content of an inode. -/
def FS.content (fs : FS) (ino : Nat) : Bytes := (fs.data.lookup ino).getD []

/-- Replace the content of an inode in the table of contents. -/
def setData : List (Nat × Bytes) → Nat → Bytes → List (Nat × Bytes)
  | [], ino, bytes => [(ino, bytes)]
  | (i, c) :: rest, ino, bytes =>
    if ino = i then (i, bytes) :: rest else (i, c) :: setData rest ino bytes

/-- Replace the content of an inode. -/
def FS.store (fs : FS) (ino : Nat) (bytes : Bytes) : FS :=
  { fs with data := setData fs.data ino bytes }

/-- What `os.Lstat` and `os.Stat` return: the type and the permission bits of the entry. -/
structure FileInfo where
  kind : Kind
  perm : Nat
  deriving DecidableEq, Repr

/-- The method `FileInfo.IsDir`. -/
def FileInfo.IsDir (info : FileInfo) : Bool := decide (info.kind = Kind.dir)

/-- The call `os.Lstat(path)`: the entry at the path itself, a symbolic link not followed. -/
def osLstat (rows : Table) (path : Bytes) : Option FileInfo × Option Errno :=
  match rows.lookup path with
  | none => (none, some Errno.ENOENT)
  | some n => (some ⟨n.kind, n.perm⟩, none)

deriving instance DecidableEq for Except

/-- The number of symbolic links one path resolution follows before it fails with `ELOOP`. -/
def maxSymlinks : Nat := 40

/-- Path resolution: follow symbolic links from `path` until an entry that is not one. The
error case names the path at which the resolution stopped. -/
def resolve (rows : Table) : Nat → Bytes → Except (Errno × Bytes) Bytes
  | links, path =>
    match rows.lookup path with
    | none => Except.error (Errno.ENOENT, path)
    | some n =>
      if n.kind = Kind.symlink then
        match links with
        | 0 => Except.error (Errno.ELOOP, path)
        | links + 1 => resolve rows links n.target
      else Except.ok path

/-- The call `os.Stat(path)`: as `os.Lstat`, symbolic links followed. -/
def osStat (rows : Table) (path : Bytes) : Option FileInfo × Option Errno :=
  match resolve rows maxSymlinks path with
  | Except.error e => (none, some e.1)
  | Except.ok p =>
    match rows.lookup p with
    | none => (none, some Errno.ENOENT)
    | some n => (some ⟨n.kind, n.perm⟩, none)

/-- A call that opens a file for its content. -/
inductive Event where
  | readFile (path : Bytes)
  | writeFile (path : Bytes) (data : Bytes)
  deriving DecidableEq, Repr

/-- The state of a run: the file system and the content calls made so far, oldest first. -/
structure World where
  fs : FS
  trace : List Event
  deriving DecidableEq, Repr

/-- The call `ioutil.ReadFile(path)`: the content of the inode the path resolves to, or no
bytes and the error when it cannot be opened for reading. -/
def ioutilReadFile (w : World) (path : Bytes) : (Bytes × Option Errno) × World :=
  let w1 : World := { w with trace := w.trace ++ [Event.readFile path] }
  match resolve w.fs.rows maxSymlinks path with
  | Except.error e => (([], some e.1), w1)
  | Except.ok p =>
    match w.fs.rows.lookup p with
    | none => (([], some Errno.ENOENT), w1)
    | some n =>
      if n.kind = Kind.dir then (([], some Errno.EISDIR), w1)
      else
        match n.readErr with
        | some e => (([], some e), w1)
        | none => ((w.fs.content n.ino, none), w1)

/-- An inode number no name of the table uses. -/
def freshIno (rows : Table) : Nat := (rows.map (fun e => e.2.ino)).foldl max 0 + 1

/-- The call `ioutil.WriteFile(path, data, perm)`: open with `O_WRONLY|O_CREATE|O_TRUNC` and
write `data`. A path that does not exist is created as a regular file with mode `perm`. An
existing file keeps its name, its inode and its permission bits. When it cannot be opened
for writing nothing changes and the error is returned; when the write fails after the
truncation the inode holds the bytes written so far and the error is returned; otherwise the
inode holds `data`. -/
def ioutilWriteFile (w : World) (path : Bytes) (data : Bytes) (perm : Nat) :
    Option Errno × World :=
  let tr := w.trace ++ [Event.writeFile path data]
  match resolve w.fs.rows maxSymlinks path with
  | Except.error (Errno.ENOENT, p) =>
    (none,
      { fs :=
          { rows := w.fs.rows
              ++ [(p, ⟨Kind.regular, perm, freshIno w.fs.rows, [], [], none, none, none⟩)],
            data := setData w.fs.data (freshIno w.fs.rows) data },
        trace := tr })
  | Except.error e => (some e.1, { w with trace := tr })
  | Except.ok p =>
    match w.fs.rows.lookup p with
    | none => (some Errno.ENOENT, { w with trace := tr })
    | some n =>
      if n.kind = Kind.dir then (some Errno.EISDIR, { w with trace := tr })
      else
        match n.writeErr with
        | some e => (some e, { w with trace := tr })
        | none =>
          match n.writeLimit with
          | some (limit, e) =>
            if limit < data.length then
              (some e, { fs := w.fs.store n.ino (data.take limit), trace := tr })
            else (none, { fs := w.fs.store n.ino data, trace := tr })
          | none => (none, { fs := w.fs.store n.ino data, trace := tr })

/-- The listing of a directory (`readDirNames` of `path/filepath`). -/
def readDirNames (rows : Table) (path : Bytes) : List Bytes × Option Errno :=
  match rows.lookup path with
  | none => ([], some Errno.ENOENT)
  | some n =>
    if n.kind = Kind.dir then
      match n.readErr with
      | some e => ([], some e)
      | none => (n.names, none)
    else ([], some Errno.ENOTDIR)

/-- The type `filepath.WalkFunc`, the state the closure captures made explicit. -/
abbrev WalkFunc (σ : Type) := σ → Bytes → Option FileInfo → Option Errno → σ × Option Errno

/-- One turn of the loop of `walk` over the names of the directory `path`: `Lstat` the entry;
when that fails hand the entry and the error to `walkFn`, otherwise descend into it. An
error ends the loop, except `SkipDir` returned for a directory or for an entry whose `Lstat`
failed. `acc` is the state and the error so far. -/
def walkEntry {σ : Type} (rows : Table) (walkFn : WalkFunc σ)
    (descend : Bytes → FileInfo → σ → σ × Option Errno) (path : Bytes)
    (acc : σ × Option Errno) (name : Bytes) : σ × Option Errno :=
  if acc.2.isSome then acc
  else
    let filename := path ++ ascii "/" ++ name
    match osLstat rows filename with
    | (some fileInfo, none) =>
      let (st2, err2) := descend filename fileInfo acc.1
      if err2.isSome && (!fileInfo.IsDir || err2 ≠ some Errno.SkipDir) then (st2, err2)
      else (st2, none)
    | (fileInfo, err) =>
      let (st2, err2) := walkFn acc.1 filename fileInfo err
      if err2.isSome && err2 ≠ some Errno.SkipDir then (st2, err2) else (st2, none)

/-- The recursive descent `walk` of `path/filepath`. An entry that is not a directory is
handed to `walkFn`; a directory is listed and handed to `walkFn` with the error of the
listing, and when neither failed its names are visited in order. `depth` is the number of
nested directories the descent may still enter. -/
def walk {σ : Type} (rows : Table) (walkFn : WalkFunc σ) :
    Nat → Bytes → FileInfo → σ → σ × Option Errno
  | depth, path, info, st =>
    if !info.IsDir then walkFn st path (some info) none
    else
      let (names, err) := readDirNames rows path
      let (st1, err1) := walkFn st path (some info) err
      if err.isSome || err1.isSome then (st1, err1)
      else
        match depth with
        | 0 => (st1, none)
        | depth + 1 => names.foldl (walkEntry rows walkFn (walk rows walkFn depth) path) (st1, none)

/-- The call `filepath.Walk(root, walkFn)`. When `Lstat` of the root fails `walkFn` is called
once, with that error. `SkipDir` returned for the root is not an error. Every directory the
descent enters is a row of the table with a longer path than the one above it, so that the
number of rows bounds the nesting (`walk_depth_enough`). -/
def filepathWalk {σ : Type} (rows : Table) (root : Bytes) (walkFn : WalkFunc σ) (st : σ) :
    σ × Option Errno :=
  let (st1, err) :=
    match osLstat rows root with
    | (some info, none) => walk rows walkFn rows.length root info st
    | (_, err) => walkFn st root none err
  if err = some Errno.SkipDir then (st1, none) else (st1, err)

/-! ## The tree rewriter -/

/-- How a call of a Go function ends: it returns `nil`, it returns an error, or it panics. -/
inductive Outcome where
  | ok
  | error (e : Errno)
  | panic
  deriving DecidableEq, Repr

/-- The parameter `replacers map[string]string`, as the `range` statement sees it. Go leaves
the iteration order of a map unspecified and lets it differ from one `range` to the next, so
`replacers i` is the sequence of `(oldString, newString)` entries the `range` statement yields
when it runs for element `i` of `fileOrDirList`. -/
abbrev Replacers := Nat → List (Bytes × Bytes)

/-- The closure passed to `filepath.Walk`: it appends the path, whatever `f` and `err` are,
and returns `nil`. -/
def walkFn : WalkFunc (List Bytes) :=
  fun fileOrDirList path _f _err => (fileOrDirList ++ [path], none)

/-- The inner loop `for oldString, newString := range replacers` for one `fileOrDir`. The
error of `ioutil.ReadFile` is discarded, the error of `ioutil.WriteFile` is returned. -/
def replaceInFile (fileOrDir : Bytes) (fileInfo : FileInfo) :
    List (Bytes × Bytes) → World → Option Errno × World
  | [], w => (none, w)
  | (oldString, newString) :: rest, w =>
    let ((contentBytes, _), w1) := ioutilReadFile w fileOrDir
    let newContentBytes := bytesReplace contentBytes oldString newString
    let (err, w2) := ioutilWriteFile w1 fileOrDir newContentBytes fileInfo.perm
    if err.isSome then (err, w2) else replaceInFile fileOrDir fileInfo rest w2

/-- The outer loop `for _, fileOrDir := range fileOrDirList`, from element `i` on. The error
of `os.Stat` is discarded; calling `IsDir` on the nil `FileInfo` of a failed `os.Stat`
panics. -/
def rewriteList (replacers : Replacers) : Nat → List Bytes → World → Outcome × World
  | _, [], w => (Outcome.ok, w)
  | i, fileOrDir :: rest, w =>
    match (osStat w.fs.rows fileOrDir).1 with
    | none => (Outcome.panic, w)
    | some fileInfo =>
      if !fileInfo.IsDir then
        match replaceInFile fileOrDir fileInfo (replacers i) w with
        | (some e, w1) => (Outcome.error e, w1)
        | (none, w1) => rewriteList replacers (i + 1) rest w1
      else rewriteList replacers (i + 1) rest w

/-- The list `fileOrDirList` and the error that `filepath.Walk` leaves behind. -/
def walkResult (rows : Table) (fullpath : Bytes) : List Bytes × Option Errno :=
  filepathWalk rows fullpath walkFn []

/-- The function `recursiveSearchReplaceFiles(fullpath, replacers)`. -/
def recursiveSearchReplaceFiles (fullpath : Bytes) (replacers : Replacers) (w : World) :
    Outcome × World :=
  let (fileOrDirList, err) := walkResult w.fs.rows fullpath
  match err with
  | some e => (Outcome.error e, w)
  | none => rewriteList replacers 0 fileOrDirList w

/-! ## The pipeline -/

/-- The loop of `strings.Split` for a non-empty separator: cut at the next instance of `sep`
and continue behind it; the rest is the last piece. -/
def splitLoop (sep : Bytes) : Nat → Bytes → List Bytes
  | 0, s => [s]
  | fuel + 1, s =>
    match bytesIndex s sep with
    | none => [s]
    | some m => s.take m :: splitLoop sep fuel (s.drop (m + sep.length))

/-- The pieces of `strings.Split` for an empty separator: one per UTF-8 sequence. -/
def explode : Nat → Bytes → List Bytes
  | 0, _ => []
  | _ + 1, [] => []
  | fuel + 1, c :: cs =>
    (c :: cs).take (runeWidth (c :: cs)) :: explode fuel ((c :: cs).drop (runeWidth (c :: cs)))

/-- The call `strings.Split(s, sep)`. -/
def stringsSplit (s sep : Bytes) : List Bytes :=
  if sep = [] then explode s.length s else splitLoop sep s.length s

/-- The call `bytes.Join(pieces, sep)`: the pieces with `sep` between them. -/
def bytesJoin : List Bytes → Bytes → Bytes
  | [], _ => []
  | [a], _ => a
  | a :: b :: rest, sep => a ++ sep ++ bytesJoin (b :: rest) sep

/-- The elements `filepath.Clean` keeps, last first: an empty element and `.` are dropped,
`..` removes the element before it when there is one to remove, is dropped at the root, and is
kept otherwise. -/
def cleanElems (rooted : Bool) : List Bytes → List Bytes → List Bytes
  | [], out => out
  | e :: rest, out =>
    if e = [] ∨ e = ascii "." then cleanElems rooted rest out
    else if e = ascii ".." then
      match out with
      | top :: below =>
        if top = ascii ".." then cleanElems rooted rest (e :: out)
        else cleanElems rooted rest below
      | [] => if rooted then cleanElems rooted rest [] else cleanElems rooted rest [e]
    else cleanElems rooted rest (e :: out)

/-- The call `filepath.Clean(path)` on a system whose separator is `/`. -/
def filepathClean (path : Bytes) : Bytes :=
  if path = [] then ascii "."
  else
    let rooted := path.head? = some (47 : UInt8)
    let body := bytesJoin (cleanElems rooted (stringsSplit path (ascii "/")) []).reverse
      (ascii "/")
    if rooted then ascii "/" ++ body
    else if body = [] then ascii "." else body

/-- The call `filepath.Join(elem...)`: the elements from the first non-empty one on, joined
by `/` and cleaned; the empty string when all are empty. -/
def filepathJoin (elem : List Bytes) : Bytes :=
  match elem.dropWhile (fun e => decide (e = [])) with
  | [] => []
  | rest => filepathClean (bytesJoin rest (ascii "/"))

/-- The index expression `xs[i]` of Go on a slice: `none` is the out-of-range panic. -/
def goIndex {α : Type} (xs : List α) (i : Int) : Option α :=
  if 0 ≤ i ∧ i < xs.length then xs[i.toNat]? else none

/-- Lines 66-68 of `main`: the chunks of `dir`, then `repoName` and `repoUser` by index;
`none` when one of the two index expressions panics. The result is `(repoUser, repoName)`. -/
def repoIdentity (dir : Bytes) : Option (Bytes × Bytes) :=
  let dirChunks := stringsSplit dir (ascii "/")
  match goIndex dirChunks ((dirChunks.length : Int) - 1) with
  | none => none
  | some repoName =>
    match goIndex dirChunks ((dirChunks.length : Int) - 2) with
    | none => none
    | some repoUser => some (repoUser, repoName)

/-- An action of `main` on the world outside the process. -/
inductive Action where
  | mkdirAll (path : Bytes)
  | command (argv : List Bytes) (dir : Option Bytes)
  | rewrite (fullpath : Bytes)
  | userCurrent
  deriving DecidableEq, Repr

/-- What `main` has done so far: its actions, and the lines it printed with `log.Print`. -/
structure Run where
  actions : List Action
  log : List Bytes
  deriving DecidableEq, Repr

/-- Record an action. -/
def Run.act (r : Run) (a : Action) : Run := { r with actions := r.actions ++ [a] }

/-- Record a line of `log.Print`. -/
def Run.print (r : Run) (line : Bytes) : Run := { r with log := r.log ++ [line] }

/-- How the process ends: `main` returns (status zero), `log.Fatal` (status one), or a
run-time panic. -/
inductive Exit where
  | success
  | fatal
  | panic
  deriving DecidableEq, Repr

/-- The world outside the process, as far as `main` observes it. `fullpath dir` is the value of
`os.ExpandEnv(filepath.Join("$GOPATH", "src", dir))`; `mkdirAll` is the error of
`os.MkdirAll`; `run argv dir` tells whether the command `argv`, started in `dir`, ends without
error; `copied` is the file system once the template has been copied; `userFirst i` tells
whether the `range` over the two-entry map yields the user entry first at element `i`;
`currentUser` is the name `user.Current` finds, if it finds one. -/
structure Env where
  fullpath : Bytes → Bytes
  mkdirAll : Bytes → Option Errno
  run : List Bytes → Option Bytes → Bool
  copied : FS
  userFirst : Nat → Bool
  currentUser : Option Bytes

/-- Run a command and record it. -/
def runCommand (env : Env) (argv : List Bytes) (dir : Option Bytes) (r : Run) : Bool × Run :=
  (env.run argv dir, r.act (Action.command argv dir))

/-- The function `createDatabase(name)`: `dropdb`, then `createdb`; the result of either only
decides what is printed. -/
def createDatabase (env : Env) (name : Bytes) (r : Run) : Run :=
  let r := r.print (ascii "Creating a database named " ++ name ++ ascii "...")
  let (dropped, r) := runCommand env [ascii "dropdb", name] none r
  let r := if dropped then r.print (ascii "Dropped existing PostgreSQL database: " ++ name) else r
  let (created, r) := runCommand env [ascii "createdb", name] none r
  if !created then r.print (ascii "Unable to create PostgreSQL database: " ++ name) else r

/-- The two-entry map `replacers` that `main` builds, in the order `range` yields it. -/
def mainReplacers (env : Env) (repoUser repoName : Bytes) : Replacers := fun i =>
  if env.userFirst i then
    [(ascii "$GO_BOOTSTRAP_REPO_USER", repoUser), (ascii "$GO_BOOTSTRAP_REPO_NAME", repoName)]
  else
    [(ascii "$GO_BOOTSTRAP_REPO_NAME", repoName), (ascii "$GO_BOOTSTRAP_REPO_USER", repoUser)]

/-- The connection string `fmt.Sprintf("postgres://%v@localhost:5432/%v?sslmode=disable", ...)`. -/
def pgDSN (username name : Bytes) : Bytes :=
  ascii "postgres://" ++ username ++ ascii "@localhost:5432/" ++ name ++ ascii "?sslmode=disable"

/-- Step 5.b of `main`: the loop over the two database names. Reading `u.Username` panics
when `user.Current` failed and left `u` nil. -/
def runMigrations (env : Env) (fullpath : Bytes) (u : Option Bytes) :
    List Bytes → Run → Option Exit × Run
  | [], r => (none, r)
  | name :: rest, r =>
    match u with
    | none => (some Exit.panic, r)
    | some username =>
      let r := r.print (ascii "Running database migrations on " ++ pgDSN username name ++ ascii "...")
      let (ok, r) := runCommand env
        [ascii "migrate", ascii "-url", pgDSN username name, ascii "-path",
          filepathJoin [fullpath, ascii "migrations"], ascii "up"] none r
      if !ok then (some Exit.fatal, r) else runMigrations env fullpath u rest r

/-- The function `main`, `dir` being the value of the flag `-dir`. -/
def main (env : Env) (dir : Bytes) : Exit × Run :=
  let r : Run := ⟨[], []⟩
  if dir = [] then (Exit.fatal, r)
  else
    match repoIdentity dir with
    | none => (Exit.panic, r)
    | some (repoUser, repoName) =>
      let fullpath := env.fullpath dir
      -- 1. Create target directory
      let r := r.print (ascii "Creating " ++ fullpath ++ ascii "...")
      let r := r.act (Action.mkdirAll fullpath)
      if (env.mkdirAll fullpath).isSome then (Exit.fatal, r)
      else
        -- 2. Copy everything under blank directory to target directory.
        let r := r.print (ascii "Copying a blank project to " ++ fullpath ++ ascii "...")
        let (ok, r) := runCommand env [ascii "cp", ascii "-rf", ascii "./blank/", fullpath] none r
        if !ok then (Exit.fatal, r)
        else
          -- 3. Interpolate placeholder variables on the new project.
          let r := r.print (ascii "Replacing placeholder variables to " ++ repoUser ++ ascii "/"
            ++ repoName ++ ascii "...")
          let r := r.act (Action.rewrite fullpath)
          match (recursiveSearchReplaceFiles fullpath (mainReplacers env repoUser repoName)
              ⟨env.copied, []⟩).1 with
          | Outcome.panic => (Exit.panic, r)
          | Outcome.error _ => (Exit.fatal, r)
          | Outcome.ok =>
            -- 4. Create PostgreSQL databases.
            let r := createDatabase env repoName r
            let r := createDatabase env (repoName ++ ascii "-test") r
            -- 5.a. go get github.com/mattes/migrate.
            let r := r.print (ascii "Installing github.com/mattes/migrate...")
            let (ok, r) := runCommand env
              [ascii "go", ascii "get", ascii "github.com/mattes/migrate"] none r
            if !ok then (Exit.fatal, r)
            else
              -- 5.b. Run migrations on localhost:5432.
              let r := r.act Action.userCurrent
              match runMigrations env fullpath env.currentUser
                  [repoName, repoName ++ ascii "-test"] r with
              | (some e, r) => (e, r)
              | (none, r) =>
                -- 6. Get all application dependencies.
                let r := r.print (ascii "Running go get ./...")
                let (ok, r) := runCommand env [ascii "go", ascii "get", ascii "./..."]
                  (some fullpath) r
                if !ok then (Exit.fatal, r)
                else
                  -- 7. Run tests on newly generated app.
                  let r := r.print (ascii "Running go test ./...")
                  let (_, r) := runCommand env [ascii "go", ascii "test", ascii "./..."]
                    (some fullpath) r
                  (Exit.success, r)

/-! ## Notions the statements use -/

/-- The left fold of a list of entries over a content: each entry is applied to the output
of the one before. -/
def applyAll (entries : List (Bytes × Bytes)) (content : Bytes) : Bytes :=
  entries.foldl (fun acc e => bytesReplace acc e.1 e.2) content

/-- The path an event is about. -/
def Event.path : Event → Bytes
  | Event.readFile p => p
  | Event.writeFile p _ => p

/-- The number of rows whose path has at least `n` bytes. -/
def rowsAtLeast (rows : Table) (n : Nat) : Nat :=
  (rows.filter (fun e => decide (n ≤ e.1.length))).length

/-- The inode the loop of the rewriter opens when it comes to `path`: the inode of what
`os.Stat` resolves the path to, unless that is a directory or `os.Stat` fails. Two paths open
the same inode when one is a symbolic link to the other or both are names of one file. -/
def opened (rows : Table) (path : Bytes) : Option Nat :=
  match resolve rows maxSymlinks path with
  | Except.error _ => none
  | Except.ok p =>
    match rows.lookup p with
    | none => none
    | some n => if n.kind = Kind.dir then none else some n.ino

/-- The bytes `ioutil.ReadFile` hands back for a node: none when opening it fails. -/
def readBytes (fs : FS) (n : Node) : Bytes :=
  match n.readErr with
  | some _ => []
  | none => fs.content n.ino

/-- What `ioutil.WriteFile` does with `data` on a node: the error it returns, and the bytes
the inode holds afterwards when it was opened. -/
def writeOutcome (n : Node) (data : Bytes) : Option Errno × Option Bytes :=
  match n.writeErr with
  | some e => (some e, none)
  | none =>
    match n.writeLimit with
    | some (limit, e) =>
      if limit < data.length then (some e, some (data.take limit)) else (none, some data)
    | none => (none, some data)

/-- The file system after `ioutil.WriteFile` on a node. -/
def afterWrite (fs : FS) (n : Node) (data : Bytes) : FS :=
  match (writeOutcome n data).2 with
  | some bytes => fs.store n.ino bytes
  | none => fs

/-! ## Sample trees -/

/-- A regular file, mode 0644. -/
def regularFile (ino : Nat) : Node := ⟨Kind.regular, 0o644, ino, [], [], none, none, none⟩

/-- A directory, mode 0755, with its listing. -/
def directory (ino : Nat) (names : List Bytes) : Node :=
  ⟨Kind.dir, 0o755, ino, names, [], none, none, none⟩

/-- A symbolic link. -/
def symlinkTo (ino : Nat) (target : Bytes) : Node :=
  ⟨Kind.symlink, 0o777, ino, [], target, none, none, none⟩

/-- A regular file that cannot be opened for writing. -/
def readOnlyFile (ino : Nat) : Node :=
  ⟨Kind.regular, 0o444, ino, [], [], none, some Errno.EACCES, none⟩

/-- A regular file, mode 0200, that cannot be opened for reading. -/
def writeOnlyFile (ino : Nat) : Node :=
  ⟨Kind.regular, 0o200, ino, [], [], some Errno.EACCES, none, none⟩

/-- A regular file on a full disk: it can be truncated, and no byte can be written. -/
def fullDiskFile (ino : Nat) : Node :=
  ⟨Kind.regular, 0o644, ino, [], [], none, none, some (0, Errno.ENOSPC)⟩

/-- A device that holds bytes. -/
def deviceNode (ino : Nat) : Node := ⟨Kind.device, 0o660, ino, [], [], none, none, none⟩

/-- The tree `r/a.txt`, the file holding `content`. -/
def oneFileTree (content : Bytes) : FS :=
  ⟨[(ascii "r", directory 1 [ascii "a.txt"]), (ascii "r/a.txt", regularFile 2)],
    [(2, content)]⟩

/-- The tree `r/a.txt`, `r/b`: the file holds `$A`, and `b` is a symbolic link to it. -/
def aliasTree : FS :=
  ⟨[(ascii "r", directory 1 [ascii "a.txt", ascii "b"]),
      (ascii "r/a.txt", regularFile 2),
      (ascii "r/b", symlinkTo 3 (ascii "r/a.txt"))],
    [(2, ascii "$A")]⟩

/-- The tree `r/a.txt`, `r/b`: two names of one file, which holds `$A`. -/
def hardLinkTree : FS :=
  ⟨[(ascii "r", directory 1 [ascii "a.txt", ascii "b"]),
      (ascii "r/a.txt", regularFile 2),
      (ascii "r/b", regularFile 2)],
    [(2, ascii "$A")]⟩

/-- The tree `r/a.txt`, `r/b.txt`, `r/c.txt`, each file holding `$A`; `b.txt` is `b`. -/
def threeFileTree (b : Node) : FS :=
  ⟨[(ascii "r", directory 1 [ascii "a.txt", ascii "b.txt", ascii "c.txt"]),
      (ascii "r/a.txt", regularFile 2),
      (ascii "r/b.txt", b),
      (ascii "r/c.txt", regularFile 4)],
    [(2, ascii "$A"), (3, ascii "$A"), (4, ascii "$A")]⟩

/-- The tree `r/a`, `r/b.txt`, `r/c.txt`: `a` is a symbolic link to `c.txt`, and `b.txt`
cannot be opened for writing. -/
def failingAliasTree : FS :=
  ⟨[(ascii "r", directory 1 [ascii "a", ascii "b.txt", ascii "c.txt"]),
      (ascii "r/a", symlinkTo 2 (ascii "r/c.txt")),
      (ascii "r/b.txt", readOnlyFile 3),
      (ascii "r/c.txt", regularFile 4)],
    [(3, ascii "$A"), (4, ascii "$A")]⟩

/-- The tree `r/a.txt` whose file, holding `x$A`, cannot be opened for reading. -/
def unreadableTree : FS :=
  ⟨[(ascii "r", directory 1 [ascii "a.txt"]), (ascii "r/a.txt", writeOnlyFile 2)],
    [(2, ascii "x$A")]⟩

/-- The tree `r/dev`, `r/link`, and the file `etc/outside.txt` beside it: `dev` is a device,
`link` a symbolic link to the file outside the tree. -/
def specialTree : FS :=
  ⟨[(ascii "r", directory 1 [ascii "dev", ascii "link"]),
      (ascii "r/dev", deviceNode 2),
      (ascii "r/link", symlinkTo 3 (ascii "etc/outside.txt")),
      (ascii "etc", directory 4 [ascii "outside.txt"]),
      (ascii "etc/outside.txt", regularFile 5)],
    [(2, ascii "$A"), (5, ascii "$A")]⟩

/-- The tree `r/l`: a symbolic link whose target does not exist. -/
def danglingTree : FS :=
  ⟨[(ascii "r", directory 1 [ascii "l"]), (ascii "r/l", symlinkTo 2 (ascii "r/missing"))], []⟩

/-- A directory that cannot be listed. -/
def lockedTree : FS :=
  ⟨[(ascii "r", ⟨Kind.dir, 0o300, 1, [ascii "a.txt"], [], some Errno.EACCES, none, none⟩),
      (ascii "r/a.txt", regularFile 2)],
    [(2, ascii "$A")]⟩

/-- The same entries for every file. -/
def always (entries : List (Bytes × Bytes)) : Replacers := fun _ => entries

/-- The entries `$A -> $B`, then `$B -> done`. -/
def chained : List (Bytes × Bytes) :=
  [(ascii "$A", ascii "$B"), (ascii "$B", ascii "done")]

/-- The entries `$B -> done`, then `$A -> $B`. -/
def chainedReversed : List (Bytes × Bytes) :=
  [(ascii "$B", ascii "done"), (ascii "$A", ascii "$B")]

/-! ## The pipeline as a list of steps -/

/-- The actions done up to and including the first step that failed fatally. -/
def stopAtFailure : List (Action × Bool) → List Action
  | [] => []
  | (a, failed) :: rest => if failed then [a] else a :: stopAtFailure rest

/-- The steps of `main` in order, each with the answer to: is the step fatal, and does it
fail in `env`? The steps of `createDatabase`, the lookup of the current user (taken to
succeed) and the final test run are never fatal. -/
def pipeline (env : Env) (dir repoUser repoName username : Bytes) : List (Action × Bool) :=
  [(Action.mkdirAll (env.fullpath dir), (env.mkdirAll (env.fullpath dir)).isSome),
    (Action.command [ascii "cp", ascii "-rf", ascii "./blank/", env.fullpath dir] none,
      !env.run [ascii "cp", ascii "-rf", ascii "./blank/", env.fullpath dir] none),
    (Action.rewrite (env.fullpath dir),
      decide ((recursiveSearchReplaceFiles (env.fullpath dir)
        (mainReplacers env repoUser repoName) ⟨env.copied, []⟩).1 ≠ Outcome.ok)),
    (Action.command [ascii "dropdb", repoName] none, false),
    (Action.command [ascii "createdb", repoName] none, false),
    (Action.command [ascii "dropdb", repoName ++ ascii "-test"] none, false),
    (Action.command [ascii "createdb", repoName ++ ascii "-test"] none, false),
    (Action.command [ascii "go", ascii "get", ascii "github.com/mattes/migrate"] none,
      !env.run [ascii "go", ascii "get", ascii "github.com/mattes/migrate"] none),
    (Action.userCurrent, false),
    (Action.command [ascii "migrate", ascii "-url", pgDSN username repoName, ascii "-path",
        filepathJoin [env.fullpath dir, ascii "migrations"], ascii "up"] none,
      !env.run [ascii "migrate", ascii "-url", pgDSN username repoName, ascii "-path",
        filepathJoin [env.fullpath dir, ascii "migrations"], ascii "up"] none),
    (Action.command [ascii "migrate", ascii "-url", pgDSN username (repoName ++ ascii "-test"),
        ascii "-path", filepathJoin [env.fullpath dir, ascii "migrations"], ascii "up"] none,
      !env.run [ascii "migrate", ascii "-url", pgDSN username (repoName ++ ascii "-test"),
        ascii "-path", filepathJoin [env.fullpath dir, ascii "migrations"], ascii "up"] none),
    (Action.command [ascii "go", ascii "get", ascii "./..."] (some (env.fullpath dir)),
      !env.run [ascii "go", ascii "get", ascii "./..."] (some (env.fullpath dir))),
    (Action.command [ascii "go", ascii "test", ascii "./..."] (some (env.fullpath dir)), false)]

/-- A world in which everything works but the commands in `failing`: the source root is
`go`, the current user is `me`, and the copied template is one file naming both
placeholders. -/
def sampleEnv (failing : List (List Bytes)) : Env where
  fullpath := fun dir => ascii "go/src/" ++ dir
  mkdirAll := fun _ => none
  run := fun argv _ => !(failing.contains argv)
  copied :=
    ⟨[(ascii "go/src/acme/widgets", directory 1 [ascii "main.go"]),
        (ascii "go/src/acme/widgets/main.go", regularFile 2)],
      [(2, ascii "$GO_BOOTSTRAP_REPO_USER/$GO_BOOTSTRAP_REPO_NAME")]⟩
  userFirst := fun _ => true
  currentUser := some (ascii "me")

/-! ## Byte strings: replacing is splitting and joining -/

theorem isPrefixOf_iff (t s : Bytes) : t.isPrefixOf s = true ↔ t <+: s :=
  List.isPrefixOf_iff_prefix

/-- Where `bytes.Index` finds nothing there is no instance. -/
theorem bytesIndex_none {s t : Bytes} (h : bytesIndex s t = none) : ¬ t <:+: s := by
  induction s with
  | nil =>
    unfold bytesIndex at h
    by_cases ht : t = []
    · simp [ht] at h
    · intro hin
      exact ht (List.infix_nil.1 hin)
  | cons c cs ih =>
    unfold bytesIndex at h
    by_cases hp : t.isPrefixOf (c :: cs) = true
    · simp [hp] at h
    · simp only [hp, Bool.false_eq_true, if_false, Option.map_eq_none'] at h
      intro hin
      rcases List.infix_cons_iff.1 hin with h1 | h1
      · exact hp ((isPrefixOf_iff _ _).2 h1)
      · exact ih h h1

/-- Where `bytes.Index` finds an instance of a non-empty `t`, the slice is what precedes the
instance, the instance and what follows it, and what precedes it holds no instance. -/
theorem bytesIndex_some {s t : Bytes} {j : Nat} (ht : t ≠ []) (h : bytesIndex s t = some j) :
    s = s.take j ++ t ++ s.drop (j + t.length) ∧ ¬ t <:+: s.take j := by
  induction s generalizing j with
  | nil =>
    unfold bytesIndex at h
    simp [ht] at h
  | cons c cs ih =>
    unfold bytesIndex at h
    by_cases hp : t.isPrefixOf (c :: cs) = true
    · simp only [hp, if_true, Option.some.injEq] at h
      subst h
      obtain ⟨r, hr⟩ := (isPrefixOf_iff _ _).1 hp
      refine ⟨?_, ?_⟩
      · simp only [List.take_zero, List.nil_append, Nat.zero_add]
        rw [← hr, List.drop_left]
      · intro hin
        exact ht (List.infix_nil.1 (by simpa using hin))
    · simp only [hp, Bool.false_eq_true, if_false, Option.map_eq_some'] at h
      obtain ⟨j', hj', rfl⟩ := h
      obtain ⟨i1, i2⟩ := ih hj'
      refine ⟨?_, ?_⟩
      · rw [show j' + 1 + t.length = (j' + t.length) + 1 by omega]
        simp only [List.take_succ_cons, List.drop_succ_cons, List.cons_append]
        rw [← i1]
      · intro hin
        simp only [List.take_succ_cons] at hin
        rcases List.infix_cons_iff.1 hin with h1 | h1
        · apply hp
          rw [isPrefixOf_iff]
          exact h1.trans (List.prefix_cons_inj c |>.2 (List.take_prefix _ _))
        · exact i2 h1

theorem bytesJoin_cons (a : Bytes) {l : List Bytes} (sep : Bytes) (h : l ≠ []) :
    bytesJoin (a :: l) sep = a ++ sep ++ bytesJoin l sep := by
  cases l with
  | nil => exact absurd rfl h
  | cons b rest => rfl

theorem splitLoop_ne_nil (t : Bytes) (fuel : Nat) (s : Bytes) : splitLoop t fuel s ≠ [] := by
  cases fuel with
  | zero => simp [splitLoop]
  | succ f =>
    unfold splitLoop
    cases bytesIndex s t <;> simp

/-- The loops of `bytes.Replace` and of `strings.Split` cut a slice at the same places: for a
non-empty `t` and enough iterations, joining the pieces with `t` gives the slice back,
joining them with `v` gives the replacement, and no piece holds an instance of `t`. -/
theorem replaceLoop_splitLoop (t v : Bytes) (ht : t ≠ []) (fuel : Nat) (s : Bytes)
    (hf : s.length ≤ fuel) :
    bytesJoin (splitLoop t fuel s) t = s
      ∧ replaceLoop t v fuel s = bytesJoin (splitLoop t fuel s) v
      ∧ ∀ piece ∈ splitLoop t fuel s, ¬ t <:+: piece := by
  induction fuel generalizing s with
  | zero =>
    have hs : s = [] := List.eq_nil_of_length_eq_zero (by omega)
    subst hs
    refine ⟨rfl, rfl, ?_⟩
    intro piece hp
    simp only [splitLoop, List.mem_singleton] at hp
    subst hp
    intro hin
    exact ht (List.infix_nil.1 hin)
  | succ f ih =>
    unfold splitLoop replaceLoop
    cases hi : bytesIndex s t with
    | none =>
      refine ⟨rfl, rfl, ?_⟩
      intro piece hp
      simp only [List.mem_singleton] at hp
      subst hp
      exact bytesIndex_none hi
    | some j =>
      obtain ⟨h1, h2⟩ := bytesIndex_some ht hi
      have hlen : (s.drop (j + t.length)).length ≤ f := by
        have hl := congrArg List.length h1
        simp only [List.length_append] at hl
        have htl : 0 < t.length := List.length_pos.2 ht
        omega
      obtain ⟨i1, i2, i3⟩ := ih (s.drop (j + t.length)) hlen
      simp only
      rw [bytesJoin_cons _ _ (splitLoop_ne_nil _ _ _), bytesJoin_cons _ _ (splitLoop_ne_nil _ _ _),
        i1, i2]
      refine ⟨h1.symm, rfl, ?_⟩
      intro piece hp
      rcases List.mem_cons.1 hp with h | h
      · subst h; exact h2
      · exact i3 piece h

/-- For a non-empty token, `bytes.Replace(s, t, v, -1)` is `bytes.Join(bytes.Split(s, t), v)`,
`s` is `bytes.Join(bytes.Split(s, t), t)`, and no piece of the split holds the token. -/
theorem bytesReplace_eq_join_split (s t v : Bytes) (ht : t ≠ []) :
    bytesJoin (stringsSplit s t) t = s
      ∧ bytesReplace s t v = bytesJoin (stringsSplit s t) v
      ∧ ∀ piece ∈ stringsSplit s t, ¬ t <:+: piece := by
  unfold bytesReplace stringsSplit
  simp only [ht, if_false]
  exact replaceLoop_splitLoop t v ht s.length s (Nat.le_refl _)

/-! ## Byte strings: where a token can occur after a replacement -/

/-- A token that shares no byte with `v` and occurs in `v ++ r` occurs in `r`. -/
theorem infix_skip_value (t v r : Bytes) (hv : ∀ b ∈ v, b ∉ t) (h : t <:+: v ++ r) :
    t <:+: r := by
  induction v with
  | nil => simpa using h
  | cons b v ih =>
    rw [List.cons_append] at h
    rcases List.infix_cons_iff.1 h with h1 | h1
    · cases t with
      | nil => exact List.nil_infix
      | cons a t' =>
        have hab : a = b := by
          obtain ⟨s, hs⟩ := h1
          simp only [List.cons_append, List.cons.injEq] at hs
          exact hs.1
        exact absurd (by simp [hab]) (hv b (List.mem_cons_self _ _))
    · exact ih (fun c hc => hv c (List.mem_cons_of_mem _ hc)) h1

/-- A token that shares no byte with a non-empty `v` and occurs in `a ++ v ++ r` occurs in
`a` or in `r`: it cannot touch `v`. -/
theorem infix_around_value (t a v r : Bytes) (hne : v ≠ []) (hv : ∀ b ∈ v, b ∉ t)
    (h : t <:+: a ++ v ++ r) : t <:+: a ∨ t <:+: r := by
  induction a with
  | nil =>
    right
    exact infix_skip_value t v r hv (by simpa using h)
  | cons c a ih =>
    rw [List.cons_append, List.cons_append] at h
    rcases List.infix_cons_iff.1 h with h1 | h1
    · left
      have h2 : c :: a <+: c :: (a ++ v ++ r) := by
        rw [List.append_assoc]
        exact List.prefix_append (c :: a) (v ++ r)
      rcases List.prefix_or_prefix_of_prefix h1 h2 with h3 | h3
      · exact h3.isInfix
      · obtain ⟨t2, ht2⟩ := h3
        cases t2 with
        | nil =>
          rw [List.append_nil] at ht2
          rw [← ht2]
        | cons b t2' =>
          exfalso
          rw [← ht2, List.append_assoc, ← List.cons_append] at h1
          have h4 : b :: t2' <+: v ++ r := (List.prefix_append_right_inj (c :: a)).1 h1
          cases v with
          | nil => exact hne rfl
          | cons b' v' =>
            obtain ⟨s, hs⟩ := h4
            simp only [List.cons_append, List.cons.injEq] at hs
            apply hv b' (List.mem_cons_self _ _)
            rw [← ht2, ← hs.1]
            simp
    · rcases ih h1 with h5 | h5
      · left
        exact List.infix_cons_iff.2 (Or.inr h5)
      · exact Or.inr h5

/-- Pieces that hold no instance of `t`, joined by a non-empty `v` that shares no byte with
`t`, hold no instance of `t`. -/
theorem not_infix_bytesJoin (t v : Bytes) (hne : v ≠ []) (hv : ∀ b ∈ v, b ∉ t)
    (pieces : List Bytes) (hp : ∀ piece ∈ pieces, ¬ t <:+: piece) (hnil : pieces ≠ []) :
    ¬ t <:+: bytesJoin pieces v := by
  induction pieces with
  | nil => exact absurd rfl hnil
  | cons a rest ih =>
    cases rest with
    | nil => exact hp a (List.mem_cons_self _ _)
    | cons b rest' =>
      rw [bytesJoin_cons a v (by simp)]
      intro h
      rcases infix_around_value t a v _ hne hv h with h1 | h1
      · exact hp a (List.mem_cons_self _ _) h1
      · exact ih (fun piece hpc => hp piece (List.mem_cons_of_mem _ hpc)) (by simp) h1

theorem stringsSplit_ne_nil (s t : Bytes) (ht : t ≠ []) : stringsSplit s t ≠ [] := by
  unfold stringsSplit
  simp only [ht, if_false]
  exact splitLoop_ne_nil _ _ _

/-! ## The file system calls -/

theorem lookup_cons (k : Bytes) (n : Node) (rest : Table) (p : Bytes) :
    List.lookup p ((k, n) :: rest) = if p = k then some n else List.lookup p rest := by
  by_cases h : p = k
  · subst h; simp [List.lookup]
  · have : (p == k) = false := by simpa using h
    simp [List.lookup, this, h]

theorem lookup_data_cons (i : Nat) (c : Bytes) (rest : List (Nat × Bytes)) (j : Nat) :
    List.lookup j ((i, c) :: rest) = if j = i then some c else List.lookup j rest := by
  by_cases h : j = i
  · subst h; simp [List.lookup]
  · have : (j == i) = false := by simpa using h
    simp [List.lookup, this, h]

theorem lookup_setData (data : List (Nat × Bytes)) (i j : Nat) (d : Bytes) :
    (setData data i d).lookup j = if j = i then some d else data.lookup j := by
  induction data with
  | nil =>
    by_cases h : j = i
    · subst h; simp [setData, List.lookup]
    · have : (j == i) = false := by simpa using h
      simp [setData, List.lookup, this, h]
  | cons e rest ih =>
    obtain ⟨k, c⟩ := e
    by_cases hk : i = k
    · subst hk
      by_cases hj : j = i
      · subst hj; simp [setData, lookup_data_cons]
      · simp [setData, lookup_data_cons, hj]
    · by_cases hj : j = i
      · subst hj; simp [setData, lookup_data_cons, hk, ih]
      · by_cases hjk : j = k
        · subst hjk; simp [setData, lookup_data_cons, hk, hj]
        · simp [setData, lookup_data_cons, hk, hj, hjk, ih]

/-- Storing into one inode changes the content of that inode and of no other. -/
theorem content_store (fs : FS) (i j : Nat) (d : Bytes) :
    (fs.store i d).content j = if j = i then d else fs.content j := by
  unfold FS.content FS.store
  simp only [lookup_setData]
  split <;> rfl

theorem content_afterWrite_ne (fs : FS) (n : Node) (d : Bytes) (j : Nat) (h : j ≠ n.ino) :
    (afterWrite fs n d).content j = fs.content j := by
  unfold afterWrite
  cases (writeOutcome n d).2 with
  | none => rfl
  | some b => simp [content_store, h]

theorem rows_afterWrite (fs : FS) (n : Node) (d : Bytes) : (afterWrite fs n d).rows = fs.rows := by
  unfold afterWrite
  cases (writeOutcome n d).2 <;> rfl

/-- A write that returns no error has stored all its bytes. -/
theorem writeOutcome_ok {n : Node} {d : Bytes} (h : (writeOutcome n d).1 = none) :
    (writeOutcome n d).2 = some d := by
  unfold writeOutcome at h ⊢
  cases hwe : n.writeErr with
  | some e => simp [hwe] at h
  | none =>
    cases hl : n.writeLimit with
    | none => rfl
    | some le =>
      obtain ⟨limit, e⟩ := le
      simp only [hwe, hl] at h ⊢
      by_cases hlt : limit < d.length
      · simp [hlt] at h
      · simp [hlt]

/-- A resolved path holds a node that is not a symbolic link. -/
theorem resolve_ok {rows : Table} {links : Nat} {p c : Bytes}
    (h : resolve rows links p = Except.ok c) :
    ∃ n, rows.lookup c = some n ∧ n.kind ≠ Kind.symlink := by
  induction links generalizing p with
  | zero =>
    unfold resolve at h
    cases hl : rows.lookup p with
    | none => simp [hl] at h
    | some n =>
      by_cases hk : n.kind = Kind.symlink
      · simp [hl, hk] at h
      · simp [hl, hk] at h
        subst h
        exact ⟨n, hl, hk⟩
  | succ k ih =>
    unfold resolve at h
    cases hl : rows.lookup p with
    | none => simp [hl] at h
    | some n =>
      by_cases hk : n.kind = Kind.symlink
      · simp [hl, hk] at h
        exact ih h
      · simp [hl, hk] at h
        subst h
        exact ⟨n, hl, hk⟩

/-- What a successful `os.Stat` says about the file system. -/
theorem osStat_some {rows : Table} {p : Bytes} {info : FileInfo}
    (h : (osStat rows p).1 = some info) :
    ∃ c n, resolve rows maxSymlinks p = Except.ok c ∧ rows.lookup c = some n
      ∧ n.kind ≠ Kind.symlink ∧ info = ⟨n.kind, n.perm⟩ := by
  unfold osStat at h
  cases hr : resolve rows maxSymlinks p with
  | error e => simp [hr] at h
  | ok c =>
    obtain ⟨n, hn, hk⟩ := resolve_ok hr
    simp [hr, hn] at h
    exact ⟨c, n, rfl, hn, hk, h.symm⟩

/-- A path that holds something other than a symbolic link resolves to itself. -/
theorem resolve_self {rows : Table} {p : Bytes} {n : Node} (links : Nat)
    (hn : rows.lookup p = some n) (hk : n.kind ≠ Kind.symlink) :
    resolve rows links p = Except.ok p := by
  cases links <;> (unfold resolve; simp [hn, hk])

theorem osStat_self {rows : Table} {p : Bytes} {n : Node}
    (hn : rows.lookup p = some n) (hk : n.kind ≠ Kind.symlink) :
    osStat rows p = (some ⟨n.kind, n.perm⟩, none) := by
  unfold osStat
  rw [resolve_self maxSymlinks hn hk]
  simp [hn]

theorem osStat_of_resolve {rows : Table} {f c : Bytes} {n : Node}
    (hr : resolve rows maxSymlinks f = Except.ok c) (hn : rows.lookup c = some n) :
    osStat rows f = (some ⟨n.kind, n.perm⟩, none) := by
  unfold osStat
  simp [hr, hn]

theorem opened_of_resolve {rows : Table} {f c : Bytes} {n : Node}
    (hr : resolve rows maxSymlinks f = Except.ok c) (hn : rows.lookup c = some n)
    (hd : n.kind ≠ Kind.dir) : opened rows f = some n.ino := by
  unfold opened
  simp [hr, hn, hd]

/-! ## The inner loop -/

theorem readFile_of_resolve {w : World} {f c : Bytes} {n : Node}
    (hr : resolve w.fs.rows maxSymlinks f = Except.ok c) (hn : w.fs.rows.lookup c = some n)
    (hd : n.kind ≠ Kind.dir) :
    ioutilReadFile w f =
      ((readBytes w.fs n, n.readErr), ⟨w.fs, w.trace ++ [Event.readFile f]⟩) := by
  unfold ioutilReadFile readBytes
  simp only [hr, hn, hd, if_false]
  cases n.readErr <;> rfl

theorem writeFile_of_resolve {w : World} {f c : Bytes} {n : Node} (d : Bytes) (perm : Nat)
    (hr : resolve w.fs.rows maxSymlinks f = Except.ok c) (hn : w.fs.rows.lookup c = some n)
    (hd : n.kind ≠ Kind.dir) :
    ioutilWriteFile w f d perm =
      ((writeOutcome n d).1, ⟨afterWrite w.fs n d, w.trace ++ [Event.writeFile f d]⟩) := by
  unfold ioutilWriteFile afterWrite writeOutcome
  simp only [hr, hn, hd, if_false]
  cases n.writeErr with
  | some e => rfl
  | none =>
    cases n.writeLimit with
    | none => rfl
    | some le =>
      obtain ⟨limit, e⟩ := le
      simp only
      split <;> rfl

/-- One turn of the inner loop on a resolved path. -/
theorem replaceInFile_cons (f : Bytes) (info : FileInfo) (c : Bytes)
    (o v : Bytes) (rest : List (Bytes × Bytes)) (w : World) (n : Node)
    (hr : resolve w.fs.rows maxSymlinks f = Except.ok c) (hn : w.fs.rows.lookup c = some n)
    (hd : n.kind ≠ Kind.dir) :
    replaceInFile f info ((o, v) :: rest) w =
      if (writeOutcome n (bytesReplace (readBytes w.fs n) o v)).1.isSome then
        ((writeOutcome n (bytesReplace (readBytes w.fs n) o v)).1,
          ⟨afterWrite w.fs n (bytesReplace (readBytes w.fs n) o v),
            w.trace ++ [Event.readFile f,
              Event.writeFile f (bytesReplace (readBytes w.fs n) o v)]⟩)
      else
        replaceInFile f info rest
          ⟨afterWrite w.fs n (bytesReplace (readBytes w.fs n) o v),
            w.trace ++ [Event.readFile f,
              Event.writeFile f (bytesReplace (readBytes w.fs n) o v)]⟩ := by
  have hrd := readFile_of_resolve hr hn hd
  have hwr := writeFile_of_resolve (w := ⟨w.fs, w.trace ++ [Event.readFile f]⟩)
    (bytesReplace (readBytes w.fs n) o v) info.perm hr hn hd
  simp only [replaceInFile, hrd, hwr, List.append_assoc, List.singleton_append]

/-- One file, frame: the inner loop keeps the names of the file system, changes the content
of no inode but the one the file resolves to, and opens nothing but the file. -/
theorem replaceInFile_frame (f : Bytes) (info : FileInfo) (c : Bytes)
    (es : List (Bytes × Bytes)) (w : World) (n : Node)
    (hr : resolve w.fs.rows maxSymlinks f = Except.ok c) (hn : w.fs.rows.lookup c = some n)
    (hd : n.kind ≠ Kind.dir) :
    (replaceInFile f info es w).2.fs.rows = w.fs.rows
      ∧ (∀ j, j ≠ n.ino → (replaceInFile f info es w).2.fs.content j = w.fs.content j)
      ∧ (∃ evs, (replaceInFile f info es w).2.trace = w.trace ++ evs
          ∧ ∀ ev ∈ evs, ev.path = f) := by
  induction es generalizing w with
  | nil => exact ⟨rfl, fun _ _ => rfl, ⟨[], by simp [replaceInFile], by simp⟩⟩
  | cons e rest ih =>
    obtain ⟨o, v⟩ := e
    rw [replaceInFile_cons f info c o v rest w n hr hn hd]
    obtain ⟨d, hdd⟩ : ∃ d, d = bytesReplace (readBytes w.fs n) o v := ⟨_, rfl⟩
    rw [← hdd]
    have hev : ∀ ev ∈ [Event.readFile f, Event.writeFile f d], ev.path = f := by
      intro ev hev
      simp only [List.mem_cons, List.mem_singleton, List.not_mem_nil, or_false] at hev
      rcases hev with h | h <;> subst h <;> rfl
    by_cases hfail : (writeOutcome n d).1.isSome = true
    · rw [if_pos hfail]
      exact ⟨rows_afterWrite _ _ _, fun j hj => content_afterWrite_ne _ _ _ j hj, ⟨_, rfl, hev⟩⟩
    · rw [if_neg hfail]
      have hr2 : resolve (afterWrite w.fs n d).rows maxSymlinks f = Except.ok c := by
        rw [rows_afterWrite]; exact hr
      have hn2 : (afterWrite w.fs n d).rows.lookup c = some n := by
        rw [rows_afterWrite]; exact hn
      obtain ⟨i1, i2, evs, i3, i4⟩ :=
        ih ⟨afterWrite w.fs n d, w.trace ++ [Event.readFile f, Event.writeFile f d]⟩ hr2 hn2
      refine ⟨i1.trans (rows_afterWrite _ _ _), ?_,
        ⟨[Event.readFile f, Event.writeFile f d] ++ evs, ?_, ?_⟩⟩
      · intro j hj
        rw [i2 j hj]
        exact content_afterWrite_ne _ _ _ j hj
      · rw [i3]; simp
      · intro ev hev'
        rcases List.mem_append.1 hev' with h | h
        · exact hev ev h
        · exact i4 ev h

/-- One file, result: when the inner loop returns `nil` on a file that can be read, the inode
of the file holds the left fold of the entries over its content. -/
theorem replaceInFile_content (f : Bytes) (info : FileInfo) (c : Bytes)
    (es : List (Bytes × Bytes)) (w : World) (n : Node)
    (hr : resolve w.fs.rows maxSymlinks f = Except.ok c) (hn : w.fs.rows.lookup c = some n)
    (hd : n.kind ≠ Kind.dir) (hre : n.readErr = none)
    (hok : (replaceInFile f info es w).1 = none) :
    (replaceInFile f info es w).2.fs.content n.ino = applyAll es (w.fs.content n.ino) := by
  induction es generalizing w with
  | nil => simp [replaceInFile, applyAll]
  | cons e rest ih =>
    obtain ⟨o, v⟩ := e
    rw [replaceInFile_cons f info c o v rest w n hr hn hd] at hok ⊢
    have hrb : readBytes w.fs n = w.fs.content n.ino := by simp [readBytes, hre]
    rw [hrb] at hok ⊢
    obtain ⟨d, hdd⟩ : ∃ d, d = bytesReplace (w.fs.content n.ino) o v := ⟨_, rfl⟩
    rw [← hdd] at hok ⊢
    by_cases hfail : (writeOutcome n d).1.isSome = true
    · rw [if_pos hfail] at hok
      simp only at hok
      rw [hok] at hfail
      simp at hfail
    · rw [if_neg hfail] at hok ⊢
      have hnone : (writeOutcome n d).1 = none := by
        cases h : (writeOutcome n d).1 with
        | none => rfl
        | some e => rw [h] at hfail; simp at hfail
      have hst : afterWrite w.fs n d = w.fs.store n.ino d := by
        unfold afterWrite
        rw [writeOutcome_ok hnone]
      have hr2 : resolve (afterWrite w.fs n d).rows maxSymlinks f = Except.ok c := by
        rw [rows_afterWrite]; exact hr
      have hn2 : (afterWrite w.fs n d).rows.lookup c = some n := by
        rw [rows_afterWrite]; exact hn
      rw [ih ⟨afterWrite w.fs n d, w.trace ++ [Event.readFile f, Event.writeFile f d]⟩
        hr2 hn2 hok]
      have hc : (afterWrite w.fs n d).content n.ino = d := by
        rw [hst, content_store, if_pos rfl]
      show applyAll rest ((afterWrite w.fs n d).content n.ino) = _
      rw [hc, hdd]
      rfl

/-! ## The walk and the outer loop -/

/-- The closure of the rewriter never makes `walk` fail. -/
theorem walk_walkFn_err (rows : Table) (depth : Nat) (path : Bytes) (info : FileInfo)
    (st : List Bytes) : (walk rows walkFn depth path info st).2 = none := by
  induction depth generalizing path info st with
  | zero =>
    unfold walk
    by_cases hd : info.IsDir = true
    · simp only [hd, Bool.not_true, Bool.false_eq_true, if_false, walkFn]
      cases (readDirNames rows path).2 <;> simp
    · simp [hd, walkFn]
  | succ d ih =>
    unfold walk
    by_cases hd : info.IsDir = true
    · simp only [hd, Bool.not_true, Bool.false_eq_true, if_false, walkFn]
      cases hrd : (readDirNames rows path).2 with
      | some e => simp
      | none =>
        simp only [Option.isSome_none, Bool.or_self, Bool.false_eq_true, if_false]
        generalize (st ++ [path]) = st0
        suffices h : ∀ (names : List Bytes) (acc : List Bytes × Option Errno), acc.2 = none →
            (names.foldl (walkEntry rows walkFn (walk rows walkFn d) path) acc).2 = none from
          h _ _ rfl
        intro names
        induction names with
        | nil => intro acc h; simpa using h
        | cons name rest ihn =>
          intro acc hacc
          rw [List.foldl_cons]
          apply ihn
          unfold walkEntry
          simp only [hacc, Option.isSome_none, Bool.false_eq_true, if_false]
          split
          · simp [ih]
          · simp [walkFn]
    · simp [hd, walkFn]

/-- The walk of the rewriter never returns an error. -/
theorem walkResult_err (rows : Table) (root : Bytes) : (walkResult rows root).2 = none := by
  unfold walkResult filepathWalk
  cases hl : rows.lookup root with
  | none => simp [osLstat, hl, walkFn]
  | some n =>
    simp only [osLstat, hl]
    have := walk_walkFn_err rows rows.length root ⟨n.kind, n.perm⟩ []
    simp [this]

/-- The walk of a root that does not exist lists the root alone. -/
theorem walkResult_missing (rows : Table) (root : Bytes) (h : rows.lookup root = none) :
    walkResult rows root = ([root], none) := by
  unfold walkResult filepathWalk
  simp [osLstat, h, walkFn]

theorem rewriteList_cons_panic (rep : Replacers) (i : Nat) (f : Bytes) (rest : List Bytes)
    (w : World) (h : (osStat w.fs.rows f).1 = none) :
    rewriteList rep i (f :: rest) w = (Outcome.panic, w) := by
  simp [rewriteList, h]

theorem rewriteList_cons_dir (rep : Replacers) (i : Nat) (f : Bytes) (rest : List Bytes)
    (w : World) (info : FileInfo) (h : (osStat w.fs.rows f).1 = some info)
    (hd : info.IsDir = true) :
    rewriteList rep i (f :: rest) w = rewriteList rep (i + 1) rest w := by
  simp [rewriteList, h, hd]

theorem rewriteList_cons_file (rep : Replacers) (i : Nat) (f : Bytes) (rest : List Bytes)
    (w : World) (info : FileInfo) (h : (osStat w.fs.rows f).1 = some info)
    (hd : info.IsDir = false) :
    rewriteList rep i (f :: rest) w =
      match replaceInFile f info (rep i) w with
      | (some e, w1) => (Outcome.error e, w1)
      | (none, w1) => rewriteList rep (i + 1) rest w1 := by
  simp [rewriteList, h, hd]

/-- The outer loop, frame: it keeps the names of the file system; an inode that no element of
the list opens holds the same content afterwards; and every file it opens is one that
`os.Stat` reports as not being a directory. -/
theorem rewriteList_frame (rep : Replacers) (l : List Bytes) (i : Nat) (w : World) :
    (rewriteList rep i l w).2.fs.rows = w.fs.rows
      ∧ (∀ j, (∀ f ∈ l, opened w.fs.rows f ≠ some j) →
          (rewriteList rep i l w).2.fs.content j = w.fs.content j)
      ∧ (∃ evs, (rewriteList rep i l w).2.trace = w.trace ++ evs
          ∧ ∀ ev ∈ evs, ev.path ∈ l
            ∧ ∃ info, (osStat w.fs.rows ev.path).1 = some info ∧ info.IsDir = false) := by
  induction l generalizing i w with
  | nil => exact ⟨rfl, fun _ _ => rfl, ⟨[], by simp [rewriteList], by simp⟩⟩
  | cons f rest ih =>
    cases hs : (osStat w.fs.rows f).1 with
    | none =>
      rw [rewriteList_cons_panic rep i f rest w hs]
      exact ⟨rfl, fun _ _ => rfl, ⟨[], by simp, by simp⟩⟩
    | some info =>
      by_cases hdir : info.IsDir = true
      · rw [rewriteList_cons_dir rep i f rest w info hs hdir]
        obtain ⟨i1, i2, evs, i3, i4⟩ := ih (i + 1) w
        refine ⟨i1, ?_, evs, i3, ?_⟩
        · intro j hj
          exact i2 j (fun g hg => hj g (List.mem_cons_of_mem _ hg))
        · intro ev hev
          exact ⟨List.mem_cons_of_mem _ (i4 ev hev).1, (i4 ev hev).2⟩
      · have hdir : info.IsDir = false := by simpa using hdir
        obtain ⟨c, n, hr, hn, _, hinfo⟩ := osStat_some hs
        have hnd : n.kind ≠ Kind.dir := by
          intro hk
          rw [hinfo] at hdir
          simp [FileInfo.IsDir, hk] at hdir
        obtain ⟨j1, j2, evs1, j3, j4⟩ := replaceInFile_frame f info c (rep i) w n hr hn hnd
        rw [rewriteList_cons_file rep i f rest w info hs hdir]
        have key : ∀ j, (∀ g ∈ f :: rest, opened w.fs.rows g ≠ some j) →
            (replaceInFile f info (rep i) w).2.fs.content j = w.fs.content j := by
          intro j hj
          apply j2 j
          intro hjn
          apply hj f (List.mem_cons_self _ _)
          rw [opened_of_resolve hr hn hnd, hjn]
        have evOK : ∀ ev ∈ evs1, ev.path ∈ f :: rest
            ∧ ∃ info, (osStat w.fs.rows ev.path).1 = some info ∧ info.IsDir = false := by
          intro ev hev
          rw [j4 ev hev]
          exact ⟨List.mem_cons_self _ _, info, hs, hdir⟩
        rcases hres : replaceInFile f info (rep i) w with ⟨_ | e, w1⟩
        · rw [hres] at j1 j3 key
          simp only at j1 j3 key ⊢
          obtain ⟨i1, i2, evs, i3, i4⟩ := ih (i + 1) w1
          refine ⟨i1.trans j1, ?_, evs1 ++ evs, ?_, ?_⟩
          · intro j hj
            rw [i2 j ?_, key j hj]
            intro g hg
            rw [j1]
            exact hj g (List.mem_cons_of_mem _ hg)
          · rw [i3, j3, List.append_assoc]
          · intro ev hev
            rcases List.mem_append.1 hev with h | h
            · exact evOK ev h
            · obtain ⟨k1, info', k2, k3⟩ := i4 ev h
              refine ⟨List.mem_cons_of_mem _ k1, info', ?_, k3⟩
              rw [← j1]
              exact k2
        · rw [hres] at j1 j3 key
          simp only at j1 j3 key ⊢
          exact ⟨j1, key, evs1, j3, evOK⟩

theorem rewriteList_append (rep : Replacers) (pre rest : List Bytes) (i : Nat) (w : World) :
    rewriteList rep i (pre ++ rest) w =
      match rewriteList rep i pre w with
      | (Outcome.ok, w1) => rewriteList rep (i + pre.length) rest w1
      | r => r := by
  induction pre generalizing i w with
  | nil => simp [rewriteList]
  | cons f pre ih =>
    cases hs : (osStat w.fs.rows f).1 with
    | none =>
      simp [rewriteList, hs]
    | some info =>
      by_cases hdir : info.IsDir = true
      · rw [List.cons_append, rewriteList_cons_dir rep i f _ w info hs hdir,
          rewriteList_cons_dir rep i f _ w info hs hdir, ih]
        simp only [List.length_cons]
        rw [show i + 1 + pre.length = i + (pre.length + 1) by omega]
      · have hdir : info.IsDir = false := by simpa using hdir
        rw [List.cons_append, rewriteList_cons_file rep i f _ w info hs hdir,
          rewriteList_cons_file rep i f _ w info hs hdir]
        rcases hres : replaceInFile f info (rep i) w with ⟨_ | e, w1⟩
        · simp only
          rw [ih]
          simp only [List.length_cons]
          rw [show i + 1 + pre.length = i + (pre.length + 1) by omega]
        · simp only

/-- The outer loop on a list split at one file: if the loop returns `nil`, the file can be
read and no other element of the list opens its inode, the inode ends up holding the left
fold of the entries of the file over its content. -/
theorem rewriteList_content (rep : Replacers) (pre post : List Bytes) (p : Bytes) (w : World)
    (n : Node) (hn : w.fs.rows.lookup p = some n) (hreg : n.kind = Kind.regular)
    (hread : n.readErr = none)
    (hpre : ∀ f ∈ pre, opened w.fs.rows f ≠ some n.ino)
    (hpost : ∀ f ∈ post, opened w.fs.rows f ≠ some n.ino)
    (hok : (rewriteList rep 0 (pre ++ p :: post) w).1 = Outcome.ok) :
    (rewriteList rep 0 (pre ++ p :: post) w).2.fs.content n.ino
      = applyAll (rep pre.length) (w.fs.content n.ino) := by
  rw [rewriteList_append] at hok ⊢
  obtain ⟨a1, a2, _⟩ := rewriteList_frame rep pre 0 w
  rcases hres : rewriteList rep 0 pre w with ⟨o, w1⟩
  rw [hres] at hok a1 a2
  simp only at a1 a2
  cases o with
  | error e => simp at hok
  | panic => simp at hok
  | ok =>
    simp only [Nat.zero_add] at hok ⊢
    have hn1 : w1.fs.rows.lookup p = some n := by rw [a1]; exact hn
    have hsym : n.kind ≠ Kind.symlink := by rw [hreg]; decide
    have hnd : n.kind ≠ Kind.dir := by rw [hreg]; decide
    have hs : (osStat w1.fs.rows p).1 = some ⟨n.kind, n.perm⟩ := by rw [osStat_self hn1 hsym]
    have hdir : (⟨n.kind, n.perm⟩ : FileInfo).IsDir = false := by
      simp [FileInfo.IsDir, hnd]
    rw [rewriteList_cons_file rep _ p post w1 _ hs hdir] at hok ⊢
    have hr1 : resolve w1.fs.rows maxSymlinks p = Except.ok p := resolve_self _ hn1 hsym
    have hc := replaceInFile_content p ⟨n.kind, n.perm⟩ p (rep pre.length) w1 n hr1 hn1 hnd hread
    obtain ⟨b1, _, _⟩ := replaceInFile_frame p ⟨n.kind, n.perm⟩ p (rep pre.length) w1 n hr1 hn1 hnd
    rcases hres2 : replaceInFile p ⟨n.kind, n.perm⟩ (rep pre.length) w1 with ⟨_ | e, w2⟩
    · rw [hres2] at hok hc b1
      simp only at hok hc b1 ⊢
      obtain ⟨_, c2, _⟩ := rewriteList_frame rep post (pre.length + 1) w2
      rw [c2 n.ino ?_, hc trivial, a2 n.ino hpre]
      intro f hf
      rw [b1, a1]
      exact hpost f hf
    · rw [hres2] at hok
      simp at hok

theorem recursiveSearchReplaceFiles_eq (root : Bytes) (rep : Replacers) (w : World) :
    recursiveSearchReplaceFiles root rep w
      = rewriteList rep 0 (walkResult w.fs.rows root).1 w := by
  unfold recursiveSearchReplaceFiles
  have h := walkResult_err w.fs.rows root
  rcases hw : walkResult w.fs.rows root with ⟨l, err⟩
  rw [hw] at h
  simp only at h
  subst h
  rfl

/-- A list split at an index. -/
theorem split_at_index {α : Type} {l : List α} {k : Nat} {p : α} (h : l[k]? = some p) :
    l = l.take k ++ p :: l.drop (k + 1) ∧ (l.take k).length = k
      ∧ l.eraseIdx k = l.take k ++ l.drop (k + 1) := by
  obtain ⟨hk, hp⟩ := List.getElem?_eq_some.1 h
  refine ⟨?_, ?_, List.eraseIdx_eq_take_drop_succ _ _⟩
  · rw [← hp, ← List.drop_eq_getElem_cons hk, List.take_append_drop]
  · rw [List.length_take]; omega

/-! ## Further facts about the rewriter -/

theorem applyAll_append (before after : List (Bytes × Bytes)) (t v c : Bytes) :
    applyAll (before ++ (t, v) :: after) c
      = applyAll after (bytesReplace (applyAll before c) t v) := by
  simp [applyAll, List.foldl_append]

theorem osLstat_of_rows {rows rows' : Table} (h : rows' = rows) (p : Bytes) :
    osLstat rows' p = osLstat rows p := by
  rw [h]

/-- A root that exists but cannot be listed: the walk lists the root alone, the loop skips
it, and the call returns `nil` having opened nothing. -/
theorem unlistable_root_returns_nil :
    recursiveSearchReplaceFiles (ascii "r") (always chained) ⟨lockedTree, []⟩
      = (Outcome.ok, ⟨lockedTree, []⟩) := by
  decide

/-- The outer loop without entries opens nothing and changes nothing; it returns `nil` when
`os.Stat` succeeds on every element, and panics at the first element on which it fails. -/
theorem rewriteList_no_entries (rep : Replacers) (hrep : ∀ i, rep i = []) (l : List Bytes)
    (i : Nat) (w : World) :
    (rewriteList rep i l w).2 = w
      ∧ ((∀ f ∈ l, (osStat w.fs.rows f).1 ≠ none) → (rewriteList rep i l w).1 = Outcome.ok)
      ∧ ((∃ f ∈ l, (osStat w.fs.rows f).1 = none) →
          (rewriteList rep i l w).1 = Outcome.panic) := by
  induction l generalizing i with
  | nil => simp [rewriteList]
  | cons f rest ih =>
    cases hs : (osStat w.fs.rows f).1 with
    | none =>
      rw [rewriteList_cons_panic rep i f rest w hs]
      refine ⟨rfl, ?_, fun _ => rfl⟩
      intro h
      exact absurd hs (h f (List.mem_cons_self _ _))
    | some info =>
      have hstep : rewriteList rep i (f :: rest) w = rewriteList rep (i + 1) rest w := by
        by_cases hdir : info.IsDir = true
        · exact rewriteList_cons_dir rep i f rest w info hs hdir
        · have hdir : info.IsDir = false := by simpa using hdir
          rw [rewriteList_cons_file rep i f rest w info hs hdir, hrep i]
          rfl
      rw [hstep]
      obtain ⟨i1, i2, i3⟩ := ih (i + 1)
      refine ⟨i1, fun h => i2 (fun g hg => h g (List.mem_cons_of_mem _ hg)), ?_⟩
      rintro ⟨g, hg, hgs⟩
      rcases List.mem_cons.1 hg with h | h
      · subst h; rw [hs] at hgs; cases hgs
      · exact i3 ⟨g, h, hgs⟩

/-- With the empty replacement set the call opens nothing and leaves the file system as it
is; it returns `nil` provided `os.Stat` succeeds on every element of the walked list. -/
theorem empty_replacers_no_op (root : Bytes) (w : World) :
    (recursiveSearchReplaceFiles root (always []) w).2 = w
      ∧ ((∀ f ∈ (walkResult w.fs.rows root).1, (osStat w.fs.rows f).1 ≠ none) →
          (recursiveSearchReplaceFiles root (always []) w).1 = Outcome.ok) := by
  rw [recursiveSearchReplaceFiles_eq]
  obtain ⟨h1, h2, _⟩ := rewriteList_no_entries (always []) (fun _ => rfl)
    (walkResult w.fs.rows root).1 0 w
  exact ⟨h1, h2⟩

/-! ## The depth of the walk -/

theorem rowsAtLeast_mono (rows : Table) {n m : Nat} (h : n ≤ m) :
    rowsAtLeast rows m ≤ rowsAtLeast rows n := by
  induction rows with
  | nil => simp [rowsAtLeast]
  | cons e rest ih =>
    simp only [rowsAtLeast, List.filter_cons] at ih ⊢
    by_cases h1 : m ≤ e.1.length
    · have h2 : n ≤ e.1.length := by omega
      simp only [h1, h2, decide_True, if_true, List.length_cons]
      omega
    · by_cases h2 : n ≤ e.1.length
      · simp only [h1, h2, decide_True, decide_False, if_true, List.length_cons]
        simp only [Bool.false_eq_true, if_false]
        omega
      · simp only [h1, h2, decide_False, Bool.false_eq_true, if_false]
        exact ih

/-- A row between two lengths separates the counts. -/
theorem rowsAtLeast_lt (rows : Table) {n m : Nat} {p : Bytes} {x : Node}
    (hx : rows.lookup p = some x) (h1 : n ≤ p.length) (h2 : p.length < m) :
    rowsAtLeast rows m + 1 ≤ rowsAtLeast rows n := by
  induction rows with
  | nil => simp [List.lookup] at hx
  | cons e rest ih =>
    obtain ⟨k, y⟩ := e
    rw [lookup_cons] at hx
    by_cases hk : p = k
    · subst hk
      have := rowsAtLeast_mono rest (show n ≤ m by omega)
      simp only [rowsAtLeast, List.filter_cons] at this ⊢
      have a1 : ¬ m ≤ p.length := by omega
      simp only [a1, h1, decide_True, decide_False, if_true, List.length_cons, Bool.false_eq_true,
        if_false]
      omega
    · simp only [hk, if_false] at hx
      have := ih hx
      simp only [rowsAtLeast, List.filter_cons] at this ⊢
      by_cases b1 : m ≤ k.length
      · have b2 : n ≤ k.length := by omega
        simp only [b1, b2, decide_True, if_true, List.length_cons]
        omega
      · by_cases b2 : n ≤ k.length
        · simp only [b1, b2, decide_True, decide_False, if_true, List.length_cons,
            Bool.false_eq_true, if_false]
          omega
        · simp only [b1, b2, decide_False, Bool.false_eq_true, if_false]
          exact this

theorem rowsAtLeast_le_length (rows : Table) (n : Nat) : rowsAtLeast rows n ≤ rows.length := by
  unfold rowsAtLeast
  exact List.length_filter_le _ _

theorem foldl_walkEntry_congr {σ : Type} (rows : Table) (walkFn : WalkFunc σ)
    (d1 d2 : Bytes → FileInfo → σ → σ × Option Errno) (path : Bytes)
    (h : ∀ name info st, (osLstat rows (path ++ ascii "/" ++ name)).1 = some info →
      d1 (path ++ ascii "/" ++ name) info st = d2 (path ++ ascii "/" ++ name) info st)
    (names : List Bytes) (acc : σ × Option Errno) :
    names.foldl (walkEntry rows walkFn d1 path) acc
      = names.foldl (walkEntry rows walkFn d2 path) acc := by
  induction names generalizing acc with
  | nil => rfl
  | cons name rest ih =>
    rw [List.foldl_cons, List.foldl_cons]
    have : walkEntry rows walkFn d1 path acc name = walkEntry rows walkFn d2 path acc name := by
      unfold walkEntry
      by_cases ha : acc.2.isSome = true
      · simp [ha]
      · simp only [ha, Bool.false_eq_true, if_false]
        rcases hl : osLstat rows (path ++ ascii "/" ++ name) with ⟨_ | fileInfo, _ | e⟩
        · rfl
        · rfl
        · simp only
          rw [h name fileInfo acc.1 (by rw [hl])]
        · rfl
    rw [this, ih]

theorem lookup_of_osLstat {rows : Table} {p : Bytes} {info : FileInfo}
    (h : (osLstat rows p).1 = some info) : ∃ x, rows.lookup p = some x := by
  unfold osLstat at h
  cases hl : rows.lookup p with
  | none => rw [hl] at h; cases h
  | some x => exact ⟨x, rfl⟩

/-- One more level of depth changes nothing once the depth is at least the number of rows
whose path is as long as the path walked: every directory entered is a row with a longer path
than the one above it. -/
theorem walk_depth_stable {σ : Type} (rows : Table) (walkFn : WalkFunc σ) (depth : Nat)
    (path : Bytes) (info : FileInfo) (st : σ) (hrow : (osLstat rows path).1 = some info)
    (hd : rowsAtLeast rows path.length ≤ depth) :
    walk rows walkFn (depth + 1) path info st = walk rows walkFn depth path info st := by
  obtain ⟨x, hx⟩ := lookup_of_osLstat hrow
  induction depth generalizing path info st x with
  | zero =>
    have := rowsAtLeast_lt rows hx (Nat.le_refl _) (Nat.lt_succ_self _)
    omega
  | succ d ih =>
    conv_lhs => unfold walk
    conv_rhs => unfold walk
    by_cases hdir : info.IsDir = true
    · simp only [hdir, Bool.not_true, Bool.false_eq_true, if_false]
      split
      · rfl
      · apply foldl_walkEntry_congr
        intro name cinfo cst hc
        obtain ⟨y, hy⟩ := lookup_of_osLstat hc
        refine ih _ cinfo cst hc ?_ y hy
        have hlen : path.length < (path ++ ascii "/" ++ name).length := by
          simp only [List.length_append]
          have : (ascii "/").length = 1 := by decide
          omega
        have := rowsAtLeast_lt rows hx (Nat.le_refl _) hlen
        omega
    · simp [hdir]

/-- The depth `filepath.Walk` starts with is enough: any larger depth gives the same walk. -/
theorem walk_depth_enough {σ : Type} (rows : Table) (walkFn : WalkFunc σ) (root : Bytes)
    (info : FileInfo) (st : σ) (hrow : (osLstat rows root).1 = some info) (more : Nat) :
    walk rows walkFn (rows.length + more) root info st = walk rows walkFn rows.length root info st := by
  induction more with
  | zero => rfl
  | succ k ih =>
    rw [← ih, ← Nat.add_assoc]
    apply walk_depth_stable rows walkFn (rows.length + k) root info st hrow
    have := rowsAtLeast_le_length rows root.length
    omega

/-! ## The steps of `main` -/

theorem goIndex_last {α : Type} (xs : List α) (h : 1 ≤ xs.length) :
    goIndex xs ((xs.length : Int) - 1) = xs.getLast? := by
  unfold goIndex
  have h1 : (0 : Int) ≤ (xs.length : Int) - 1 ∧ (xs.length : Int) - 1 < xs.length := by omega
  rw [if_pos h1, List.getLast?_eq_getElem?]
  congr 1
  omega

theorem goIndex_second_last {α : Type} (xs : List α) (h : 2 ≤ xs.length) :
    goIndex xs ((xs.length : Int) - 2) = xs.dropLast.getLast? := by
  unfold goIndex
  have h1 : (0 : Int) ≤ (xs.length : Int) - 2 ∧ (xs.length : Int) - 2 < xs.length := by omega
  rw [if_pos h1, List.getLast?_dropLast, if_neg (by omega)]
  congr 1
  omega

theorem goIndex_out_of_range {α : Type} (xs : List α) (h : xs.length < 2) :
    goIndex xs ((xs.length : Int) - 2) = none := by
  unfold goIndex
  rw [if_neg (by omega)]

/-- With at least two segments both index expressions of `main` are in bounds. -/
theorem repoIdentity_of_two_segments (dir : Bytes)
    (h : 2 ≤ (stringsSplit dir (ascii "/")).length) :
    ∃ repoUser repoName,
      (stringsSplit dir (ascii "/")).getLast? = some repoName
        ∧ (stringsSplit dir (ascii "/")).dropLast.getLast? = some repoUser
        ∧ goIndex (stringsSplit dir (ascii "/"))
            (((stringsSplit dir (ascii "/")).length : Int) - 1) = some repoName
        ∧ goIndex (stringsSplit dir (ascii "/"))
            (((stringsSplit dir (ascii "/")).length : Int) - 2) = some repoUser
        ∧ repoIdentity dir = some (repoUser, repoName) := by
  generalize hc : stringsSplit dir (ascii "/") = chunks at h ⊢
  have h1 := goIndex_last chunks (by omega)
  have h2 := goIndex_second_last chunks h
  have hl : ∃ name, chunks.getLast? = some name := by
    cases hx : chunks.getLast? with
    | none =>
      rw [List.getLast?_eq_none_iff] at hx
      subst hx
      simp at h
    | some name => exact ⟨name, rfl⟩
  have hu : ∃ user, chunks.dropLast.getLast? = some user := by
    cases hx : chunks.dropLast.getLast? with
    | none =>
      rw [List.getLast?_eq_none_iff] at hx
      have := congrArg List.length hx
      simp at this
      omega
    | some user => exact ⟨user, rfl⟩
  obtain ⟨name, hname⟩ := hl
  obtain ⟨user, huser⟩ := hu
  refine ⟨user, name, hname, huser, h1.trans hname, h2.trans huser, ?_⟩
  unfold repoIdentity
  simp only [hc, h1, h2, hname, huser]

theorem split_empty_dir : stringsSplit [] (ascii "/") = [[]] := by decide

theorem createDatabase_actions (env : Env) (name : Bytes) (r : Run) :
    (createDatabase env name r).actions
      = r.actions ++ [Action.command [ascii "dropdb", name] none,
          Action.command [ascii "createdb", name] none] := by
  unfold createDatabase runCommand
  cases env.run [ascii "dropdb", name] none <;> cases env.run [ascii "createdb", name] none <;>
    simp [Run.act, Run.print]

theorem main_pipeline (env : Env) (dir repoUser repoName u : Bytes)
    (hid : repoIdentity dir = some (repoUser, repoName)) (hd : dir ≠ [])
    (hu : env.currentUser = some u) :
    (main env dir).2.actions = stopAtFailure (pipeline env dir repoUser repoName u)
      ∧ ((main env dir).1 ≠ Exit.success ↔
          ∃ s ∈ pipeline env dir repoUser repoName u, s.2 = true) := by
  unfold main
  simp only [hd, if_false, hid]
  cases h1 : env.mkdirAll (env.fullpath dir) with
  | some e => simp [pipeline, stopAtFailure, h1, Run.act, Run.print]
  | none =>
    cases h2 : env.run [ascii "cp", ascii "-rf", ascii "./blank/", env.fullpath dir] none with
    | false => simp [pipeline, stopAtFailure, h1, h2, Run.act, Run.print, runCommand]
    | true =>
      cases h3 : (recursiveSearchReplaceFiles (env.fullpath dir)
          (mainReplacers env repoUser repoName) ⟨env.copied, []⟩).1 with
      | panic => simp [pipeline, stopAtFailure, h1, h2, h3, Run.act, Run.print, runCommand]
      | error e => simp [pipeline, stopAtFailure, h1, h2, h3, Run.act, Run.print, runCommand]
      | ok =>
        cases h4 : env.run [ascii "go", ascii "get", ascii "github.com/mattes/migrate"] none with
        | false =>
          simp [pipeline, stopAtFailure, h1, h2, h3, h4, Run.act, Run.print, runCommand,
            createDatabase_actions]
        | true =>
          cases h5 : env.run [ascii "migrate", ascii "-url", pgDSN u repoName, ascii "-path",
            filepathJoin [env.fullpath dir, ascii "migrations"], ascii "up"] none with
          | false =>
            simp [pipeline, stopAtFailure, h1, h2, h3, h4, h5, hu, Run.act, Run.print,
              runCommand, runMigrations, createDatabase_actions]
          | true =>
            cases h6 : env.run [ascii "migrate", ascii "-url",
              pgDSN u (repoName ++ ascii "-test"), ascii "-path",
              filepathJoin [env.fullpath dir, ascii "migrations"], ascii "up"] none with
            | false =>
              simp [pipeline, stopAtFailure, h1, h2, h3, h4, h5, h6, hu, Run.act, Run.print,
                runCommand, runMigrations, createDatabase_actions]
            | true =>
              cases h7 : env.run [ascii "go", ascii "get", ascii "./..."]
                (some (env.fullpath dir)) with
              | false =>
                simp [pipeline, stopAtFailure, h1, h2, h3, h4, h5, h6, h7, hu, Run.act,
                  Run.print, runCommand, runMigrations, createDatabase_actions]
              | true =>
                simp [pipeline, stopAtFailure, h1, h2, h3, h4, h5, h6, h7, hu, Run.act,
                  Run.print, runCommand, runMigrations, createDatabase_actions]

/-! ## The claims -/

/-- Claim C1, as amended. Whenever `recursiveSearchReplaceFiles` succeeds, a regular file of
the walked list that can be read, and whose inode no other element of the list opens (no
symbolic link to it and no second name of it is in the list), is still the same file and
holds the left fold, over the entries in the order `range` yields them for this file and
starting from the original content, of `bytes.Replace(content, token, value, -1)`: each entry
is applied to the output of the previous one. -/
theorem rewrite_applies_entries_in_sequence (root : Bytes) (rep : Replacers) (w : World)
    (k : Nat) (p : Bytes) (n : Node)
    (hk : (walkResult w.fs.rows root).1[k]? = some p)
    (hn : w.fs.rows.lookup p = some n) (hreg : n.kind = Kind.regular) (hread : n.readErr = none)
    (halias : ∀ q ∈ (walkResult w.fs.rows root).1.eraseIdx k,
      opened w.fs.rows q ≠ some n.ino)
    (hok : (recursiveSearchReplaceFiles root rep w).1 = Outcome.ok) :
    (recursiveSearchReplaceFiles root rep w).2.fs.rows.lookup p = some n
      ∧ (recursiveSearchReplaceFiles root rep w).2.fs.content n.ino
        = applyAll (rep k) (w.fs.content n.ino) := by
  rw [recursiveSearchReplaceFiles_eq] at hok ⊢
  refine ⟨by rw [(rewriteList_frame rep _ 0 w).1]; exact hn, ?_⟩
  obtain ⟨h1, h2, h3⟩ := split_at_index hk
  rw [h3] at halias
  rw [h1] at hok ⊢
  have := rewriteList_content rep _ _ p w n hn hreg hread
    (fun f hf => halias f (List.mem_append_left _ hf))
    (fun f hf => halias f (List.mem_append_right _ hf)) hok
  rw [h2] at this
  exact this

/-- Claim C1 at the scenario of the specification: `a.txt` holds `$A`, the entries are
`$A -> $B` and `$B -> done` in that order, and the file ends up holding `done`. -/
theorem rewrite_applies_entries_in_sequence_witness :
    (walkResult (oneFileTree (ascii "$A")).rows (ascii "r")).1[1]? = some (ascii "r/a.txt")
      ∧ (oneFileTree (ascii "$A")).content 2 = ascii "$A"
      ∧ (recursiveSearchReplaceFiles (ascii "r") (always chained)
          ⟨oneFileTree (ascii "$A"), []⟩).1 = Outcome.ok
      ∧ (recursiveSearchReplaceFiles (ascii "r") (always chained)
          ⟨oneFileTree (ascii "$A"), []⟩).2.fs.content 2
        = applyAll chained ((oneFileTree (ascii "$A")).content 2)
      ∧ applyAll chained (ascii "$A") = ascii "done" :=
  ⟨by decide, by decide, by decide,
    (rewrite_applies_entries_in_sequence (ascii "r") (always chained)
      ⟨oneFileTree (ascii "$A"), []⟩ 1 (ascii "r/a.txt") (regularFile 2)
      (by decide) (by decide) (by decide) (by decide) (by decide) (by decide)).2,
    by decide⟩

/-- Claim C1 fails as stated: in the tree `r/a.txt`, `r/b` with `b` a symbolic link to
`a.txt`, the regular file `a.txt` holds `$A`; with the entries `$B -> done`, `$A -> $B` in
that order the call succeeds and the file, rewritten once under its own name and once more
through the link, holds `done`, while the left fold of the entries over `$A` is `$B`. -/
theorem fold_fails_for_linked_file :
    (walkResult aliasTree.rows (ascii "r")).1 = [ascii "r", ascii "r/a.txt", ascii "r/b"]
      ∧ aliasTree.rows.lookup (ascii "r/a.txt") = some (regularFile 2)
      ∧ aliasTree.content 2 = ascii "$A"
      ∧ (recursiveSearchReplaceFiles (ascii "r") (always chainedReversed)
          ⟨aliasTree, []⟩).1 = Outcome.ok
      ∧ (recursiveSearchReplaceFiles (ascii "r") (always chainedReversed)
          ⟨aliasTree, []⟩).2.fs.rows.lookup (ascii "r/a.txt") = some (regularFile 2)
      ∧ (recursiveSearchReplaceFiles (ascii "r") (always chainedReversed)
          ⟨aliasTree, []⟩).2.fs.content 2 = ascii "done"
      ∧ applyAll chainedReversed (ascii "$A") = ascii "$B"
      ∧ ascii "done" ≠ ascii "$B" := by
  decide

/-- The same with two names of one file instead of a symbolic link: the file is rewritten
once under each name. With the entry `ab -> a` the file holding `abb` ends up holding `a`,
not `ab`. -/
theorem fold_fails_for_file_with_two_names :
    (walkResult hardLinkTree.rows (ascii "r")).1 = [ascii "r", ascii "r/a.txt", ascii "r/b"]
      ∧ opened hardLinkTree.rows (ascii "r/b") = some 2
      ∧ (recursiveSearchReplaceFiles (ascii "r") (always chainedReversed)
          ⟨hardLinkTree, []⟩).2.fs.content 2 = ascii "done"
      ∧ (recursiveSearchReplaceFiles (ascii "r") (always [(ascii "ab", ascii "a")])
          ⟨⟨hardLinkTree.rows, [(2, ascii "abb")]⟩, []⟩).2.fs.content 2 = ascii "a"
      ∧ applyAll [(ascii "ab", ascii "a")] (ascii "abb") = ascii "ab" := by
  decide

/-- Claim C2, as amended. Let `recursiveSearchReplaceFiles` succeed, and take a regular file
of the walked list that can be read and whose inode no other element of the list opens, and
an entry `(t, v)` of its entries with `t` not empty; let `c` be what the earlier entries
make of the original content. Then `c` is cut at its leftmost non-overlapping instances of
`t` into pieces none of which holds `t` (the pieces joined by `t` are `c`); the final content
is what the later entries make of the pieces joined by `v`; and when `v` is not empty and
shares no byte with `t`, no instance of `t` is left right after the entry is applied, that
is in the pieces joined by `v`. In particular, after a single-entry list `(t, v)` the file
holds the pieces of its original content joined by `v`, and `t` does not occur in it when
`v` is not empty and shares no byte with `t`. -/
theorem token_absent_from_carried_pieces (root : Bytes) (rep : Replacers) (w : World)
    (k : Nat) (p : Bytes) (n : Node) (before after : List (Bytes × Bytes)) (t v : Bytes)
    (hk : (walkResult w.fs.rows root).1[k]? = some p)
    (hn : w.fs.rows.lookup p = some n) (hreg : n.kind = Kind.regular) (hread : n.readErr = none)
    (halias : ∀ q ∈ (walkResult w.fs.rows root).1.eraseIdx k,
      opened w.fs.rows q ≠ some n.ino)
    (hok : (recursiveSearchReplaceFiles root rep w).1 = Outcome.ok)
    (hentry : rep k = before ++ (t, v) :: after) (ht : t ≠ []) :
    (∀ piece ∈ stringsSplit (applyAll before (w.fs.content n.ino)) t, ¬ t <:+: piece)
      ∧ bytesJoin (stringsSplit (applyAll before (w.fs.content n.ino)) t) t
        = applyAll before (w.fs.content n.ino)
      ∧ (recursiveSearchReplaceFiles root rep w).2.fs.content n.ino
        = applyAll after (bytesJoin (stringsSplit (applyAll before (w.fs.content n.ino)) t) v)
      ∧ (v ≠ [] → (∀ b ∈ v, b ∉ t) →
          ¬ t <:+: bytesJoin (stringsSplit (applyAll before (w.fs.content n.ino)) t) v)
      ∧ (before = [] → after = [] →
          (recursiveSearchReplaceFiles root rep w).2.fs.content n.ino
              = bytesJoin (stringsSplit (w.fs.content n.ino) t) v
            ∧ (v ≠ [] → (∀ b ∈ v, b ∉ t) →
                ¬ t <:+: (recursiveSearchReplaceFiles root rep w).2.fs.content n.ino)) := by
  obtain ⟨h1, h2, h3⟩ := bytesReplace_eq_join_split (applyAll before (w.fs.content n.ino)) t v ht
  have hfinal : (recursiveSearchReplaceFiles root rep w).2.fs.content n.ino
      = applyAll after
          (bytesJoin (stringsSplit (applyAll before (w.fs.content n.ino)) t) v) := by
    rw [recursiveSearchReplaceFiles_eq] at hok ⊢
    obtain ⟨g1, g2, g3⟩ := split_at_index hk
    rw [g3] at halias
    rw [g1] at hok ⊢
    have hfold := rewriteList_content rep _ _ p w n hn hreg hread
      (fun f hf => halias f (List.mem_append_left _ hf))
      (fun f hf => halias f (List.mem_append_right _ hf)) hok
    rw [g2, hentry, applyAll_append, h2] at hfold
    exact hfold
  have hfree : v ≠ [] → (∀ b ∈ v, b ∉ t) →
      ¬ t <:+: bytesJoin (stringsSplit (applyAll before (w.fs.content n.ino)) t) v :=
    fun hv hb => not_infix_bytesJoin t v hv hb _ h3 (stringsSplit_ne_nil _ _ ht)
  refine ⟨h3, h1, hfinal, hfree, ?_⟩
  intro hb ha
  subst hb
  subst ha
  have hsingle : (recursiveSearchReplaceFiles root rep w).2.fs.content n.ino
      = bytesJoin (stringsSplit (w.fs.content n.ino) t) v := hfinal
  refine ⟨hsingle, ?_⟩
  intro hv hbytes
  rw [hsingle]
  exact hfree hv hbytes

/-- Claim C2 at the file holding `abb` and the single entry `ab -> a`, and at the file
holding `x$Ay` and the single entry `$A -> b`: in the first the pieces are the empty one and
`b` and the file ends up holding their join by `a`; in the second the value shares no byte
with the token and the token is gone. -/
theorem token_absent_from_carried_pieces_witness :
    stringsSplit (ascii "abb") (ascii "ab") = [[], ascii "b"]
      ∧ (recursiveSearchReplaceFiles (ascii "r") (always [(ascii "ab", ascii "a")])
          ⟨oneFileTree (ascii "abb"), []⟩).2.fs.content 2
        = bytesJoin (stringsSplit ((oneFileTree (ascii "abb")).content 2) (ascii "ab"))
            (ascii "a")
      ∧ ¬ ascii "$A" <:+: (recursiveSearchReplaceFiles (ascii "r")
          (always [(ascii "$A", ascii "b")]) ⟨oneFileTree (ascii "x$Ay"), []⟩).2.fs.content 2 :=
  ⟨by decide,
    ((token_absent_from_carried_pieces (ascii "r") (always [(ascii "ab", ascii "a")])
      ⟨oneFileTree (ascii "abb"), []⟩ 1 (ascii "r/a.txt") (regularFile 2) [] []
      (ascii "ab") (ascii "a") (by decide) (by decide) (by decide) (by decide) (by decide)
      (by decide) (by decide) (by decide)).2.2.2.2 rfl rfl).1,
    ((token_absent_from_carried_pieces (ascii "r") (always [(ascii "$A", ascii "b")])
      ⟨oneFileTree (ascii "x$Ay"), []⟩ 1 (ascii "r/a.txt") (regularFile 2) [] []
      (ascii "$A") (ascii "b") (by decide) (by decide) (by decide) (by decide) (by decide)
      (by decide) (by decide) (by decide)).2.2.2.2 rfl rfl).2 (by decide) (by decide)⟩

/-- Claim C2 fails as stated: with the single entry `ab -> a` the file holding `abb` is
rewritten to `ab`, which contains the token although no entry is applied later (and although
the value does not contain the token). -/
theorem token_remains_after_single_entry :
    (oneFileTree (ascii "abb")).content 2 = ascii "abb"
      ∧ (recursiveSearchReplaceFiles (ascii "r") (always [(ascii "ab", ascii "a")])
          ⟨oneFileTree (ascii "abb"), []⟩).1 = Outcome.ok
      ∧ (recursiveSearchReplaceFiles (ascii "r") (always [(ascii "ab", ascii "a")])
          ⟨oneFileTree (ascii "abb"), []⟩).2.fs.content 2 = ascii "ab"
      ∧ ascii "ab" <:+: ascii "ab"
      ∧ ¬ ascii "ab" <:+: ascii "a" := by
  decide

/-- Claim C3, the code at the failing input: the file `r/a.txt` cannot be opened for reading
(`ReadFile` returns no bytes and `EACCES`) but can be written; with the entry `$A -> b` the
call does not stop at the file: it writes the replacement of no bytes over it, so that the
file is empty afterwards, and returns `nil`. -/
theorem read_failure_is_swallowed :
    (ioutilReadFile ⟨unreadableTree, []⟩ (ascii "r/a.txt")).1 = ([], some Errno.EACCES)
      ∧ unreadableTree.rows.lookup (ascii "r/a.txt") = some (writeOnlyFile 2)
      ∧ unreadableTree.content 2 = ascii "x$A"
      ∧ recursiveSearchReplaceFiles (ascii "r") (always [(ascii "$A", ascii "b")])
          ⟨unreadableTree, []⟩
        = (Outcome.ok,
            ⟨⟨[(ascii "r", directory 1 [ascii "a.txt"]), (ascii "r/a.txt", writeOnlyFile 2)],
                [(2, [])]⟩,
              [Event.readFile (ascii "r/a.txt"), Event.writeFile (ascii "r/a.txt") []]⟩) := by
  decide

/-- Claim C4, the code at a root that does not exist: the closure handed to `filepath.Walk`
drops the error of `Lstat` and returns `nil`, the walk succeeds listing the root alone,
`os.Stat` of the root fails, and `IsDir` on its nil result panics. Nothing is read or written,
and no error reaches the caller. -/
theorem missing_root_panics (fs : FS) (trace : List Event) (root : Bytes) (rep : Replacers)
    (h : fs.rows.lookup root = none) :
    walkResult fs.rows root = ([root], none)
      ∧ osStat fs.rows root = (none, some Errno.ENOENT)
      ∧ recursiveSearchReplaceFiles root rep ⟨fs, trace⟩ = (Outcome.panic, ⟨fs, trace⟩) := by
  have hs : osStat fs.rows root = (none, some Errno.ENOENT) := by
    unfold osStat resolve
    cases maxSymlinks <;> simp [h]
  refine ⟨walkResult_missing fs.rows root h, hs, ?_⟩
  rw [recursiveSearchReplaceFiles_eq]
  simp only [walkResult_missing fs.rows root h]
  rw [rewriteList_cons_panic]
  simp [hs]

/-- Claim C4 at the root `nowhere` beside the tree `r/a.txt`. -/
theorem missing_root_panics_witness :
    (oneFileTree (ascii "$A")).rows.lookup (ascii "nowhere") = none
      ∧ recursiveSearchReplaceFiles (ascii "nowhere") (always chained)
          ⟨oneFileTree (ascii "$A"), []⟩
        = (Outcome.panic, ⟨oneFileTree (ascii "$A"), []⟩) :=
  ⟨by decide,
    (missing_root_panics (oneFileTree (ascii "$A")) [] (ascii "nowhere") (always chained)
      (by decide)).2.2⟩

/-- Claim C5, as amended. `recursiveSearchReplaceFiles` never opens a directory for its
content: every `ReadFile` and `WriteFile` it calls is on a path that `os.Stat` resolves to
something that is not a directory; every path holding a directory or a symbolic link holds
the same node (kind, permission bits, listing, target) after the call as before; and the
content of an inode is the same after the call as before unless some element of the walked
list resolves, through `os.Stat`, to something that is not a directory and has that inode. -/
theorem rewrite_spares_directories (root : Bytes) (rep : Replacers) (w : World) :
    (∃ evs, (recursiveSearchReplaceFiles root rep w).2.trace = w.trace ++ evs
        ∧ ∀ ev ∈ evs, ∃ info, (osStat w.fs.rows ev.path).1 = some info ∧ info.IsDir = false)
      ∧ (∀ p n, w.fs.rows.lookup p = some n → n.kind = Kind.dir ∨ n.kind = Kind.symlink →
          (recursiveSearchReplaceFiles root rep w).2.fs.rows.lookup p = some n)
      ∧ (∀ i, (∀ f ∈ (walkResult w.fs.rows root).1, opened w.fs.rows f ≠ some i) →
          (recursiveSearchReplaceFiles root rep w).2.fs.content i = w.fs.content i) := by
  rw [recursiveSearchReplaceFiles_eq]
  obtain ⟨h1, h2, evs, h3, h4⟩ := rewriteList_frame rep (walkResult w.fs.rows root).1 0 w
  refine ⟨⟨evs, h3, fun ev hev => (h4 ev hev).2⟩, ?_, h2⟩
  intro p n hn _
  rw [h1]
  exact hn

/-- Claim C5 at the tree `r/dev`, `r/link`: the directory `r` and the symbolic link hold the
same nodes after the call as before, and the inode of the directory `etc`, which nothing in
the walked list opens, holds what it held. -/
theorem rewrite_spares_directories_witness :
    (recursiveSearchReplaceFiles (ascii "r") (always [(ascii "$A", ascii "x")])
        ⟨specialTree, []⟩).2.fs.rows.lookup (ascii "r")
        = some (directory 1 [ascii "dev", ascii "link"])
      ∧ (recursiveSearchReplaceFiles (ascii "r") (always [(ascii "$A", ascii "x")])
          ⟨specialTree, []⟩).2.fs.rows.lookup (ascii "r/link")
        = some (symlinkTo 3 (ascii "etc/outside.txt"))
      ∧ (recursiveSearchReplaceFiles (ascii "r") (always [(ascii "$A", ascii "x")])
          ⟨specialTree, []⟩).2.fs.content 4 = specialTree.content 4 :=
  ⟨(rewrite_spares_directories (ascii "r") (always [(ascii "$A", ascii "x")])
      ⟨specialTree, []⟩).2.1 (ascii "r") _ (by decide) (Or.inl (by decide)),
    (rewrite_spares_directories (ascii "r") (always [(ascii "$A", ascii "x")])
      ⟨specialTree, []⟩).2.1 (ascii "r/link") _ (by decide) (Or.inr (by decide)),
    (rewrite_spares_directories (ascii "r") (always [(ascii "$A", ascii "x")])
      ⟨specialTree, []⟩).2.2 4 (by decide)⟩

/-- Claim C5 fails as stated: in the tree `r/dev`, `r/link`, with `dev` a device and `link` a
symbolic link to a file outside the tree, the call with the entry `$A -> x` calls `ReadFile`
and `WriteFile` on both entries, neither of which is a regular file; afterwards the device
holds other bytes than before and so does the file outside the tree. -/
theorem special_entries_are_rewritten :
    osLstat specialTree.rows (ascii "r/dev") = (some ⟨Kind.device, 0o660⟩, none)
      ∧ osLstat specialTree.rows (ascii "r/link") = (some ⟨Kind.symlink, 0o777⟩, none)
      ∧ (recursiveSearchReplaceFiles (ascii "r") (always [(ascii "$A", ascii "x")])
          ⟨specialTree, []⟩).2.trace
        = [Event.readFile (ascii "r/dev"), Event.writeFile (ascii "r/dev") (ascii "x"),
            Event.readFile (ascii "r/link"), Event.writeFile (ascii "r/link") (ascii "x")]
      ∧ specialTree.rows.lookup (ascii "r/dev") = some (deviceNode 2)
      ∧ specialTree.content 2 = ascii "$A"
      ∧ (recursiveSearchReplaceFiles (ascii "r") (always [(ascii "$A", ascii "x")])
          ⟨specialTree, []⟩).2.fs.content 2 = ascii "x"
      ∧ specialTree.rows.lookup (ascii "etc/outside.txt") = some (regularFile 5)
      ∧ specialTree.content 5 = ascii "$A"
      ∧ (recursiveSearchReplaceFiles (ascii "r") (always [(ascii "$A", ascii "x")])
          ⟨specialTree, []⟩).2.fs.content 5 = ascii "x" := by
  decide

/-- Claim C6. Whatever the tree, the entries and the outcome, `recursiveSearchReplaceFiles`
changes contents only: the file system after the call has the paths it had before, in the
same rows, and at every path `os.Lstat` reports the kind and the permission bits it reported
before; indeed the whole table of names (inodes, listings, link targets included) is the
same. -/
theorem rewrite_changes_contents_only (root : Bytes) (rep : Replacers) (w : World) :
    (recursiveSearchReplaceFiles root rep w).2.fs.rows.map Prod.fst = w.fs.rows.map Prod.fst
      ∧ (∀ p, osLstat (recursiveSearchReplaceFiles root rep w).2.fs.rows p
          = osLstat w.fs.rows p)
      ∧ (recursiveSearchReplaceFiles root rep w).2.fs.rows = w.fs.rows := by
  have h : (recursiveSearchReplaceFiles root rep w).2.fs.rows = w.fs.rows := by
    rw [recursiveSearchReplaceFiles_eq]
    exact (rewriteList_frame rep _ 0 w).1
  exact ⟨by rw [h], fun p => osLstat_of_rows h p, h⟩

/-- Claim C7, as amended. Let the loop get through the first `k` elements of the walked list,
let `os.Stat` report element `k` as not being a directory, and let a write to it fail, on
opening the file or after its truncation, so that the inner loop returns the error. Then
`recursiveSearchReplaceFiles` returns that error and nothing is rolled back: a regular file
among the first `k` elements that can be read, and whose inode neither another of them nor
element `k` opens, holds its fully rewritten content; and an inode that none of the first
`k` elements and not element `k` opens holds its original content. -/
theorem failed_write_stops_without_rollback (root : Bytes) (rep : Replacers) (w : World)
    (k : Nat) (f : Bytes) (info : FileInfo) (e : Errno)
    (hk : (walkResult w.fs.rows root).1[k]? = some f)
    (hreach : (rewriteList rep 0 ((walkResult w.fs.rows root).1.take k) w).1 = Outcome.ok)
    (hstat : (osStat w.fs.rows f).1 = some info) (hnd : info.IsDir = false)
    (hfail : (replaceInFile f info (rep k)
      (rewriteList rep 0 ((walkResult w.fs.rows root).1.take k) w).2).1 = some e) :
    (recursiveSearchReplaceFiles root rep w).1 = Outcome.error e
      ∧ (∀ j q m, ((walkResult w.fs.rows root).1.take k)[j]? = some q →
          w.fs.rows.lookup q = some m → m.kind = Kind.regular → m.readErr = none →
          (∀ g ∈ ((walkResult w.fs.rows root).1.take k).eraseIdx j,
            opened w.fs.rows g ≠ some m.ino) →
          opened w.fs.rows f ≠ some m.ino →
          (recursiveSearchReplaceFiles root rep w).2.fs.content m.ino
            = applyAll (rep j) (w.fs.content m.ino))
      ∧ (∀ i, (∀ g ∈ (walkResult w.fs.rows root).1.take k, opened w.fs.rows g ≠ some i) →
          opened w.fs.rows f ≠ some i →
          (recursiveSearchReplaceFiles root rep w).2.fs.content i = w.fs.content i) := by
  obtain ⟨h1, h2, _⟩ := split_at_index hk
  obtain ⟨a1, a2, _⟩ := rewriteList_frame rep ((walkResult w.fs.rows root).1.take k) 0 w
  have hs1 : (osStat (rewriteList rep 0 ((walkResult w.fs.rows root).1.take k) w).2.fs.rows f).1
      = some info := by rw [a1]; exact hstat
  obtain ⟨c, n, hr, hn, _, hinfo⟩ := osStat_some hs1
  have hnk : n.kind ≠ Kind.dir := by
    intro hkd
    rw [hinfo] at hnd
    simp [FileInfo.IsDir, hkd] at hnd
  have hop : opened w.fs.rows f = some n.ino := by
    rw [← a1]; exact opened_of_resolve hr hn hnk
  obtain ⟨b1, b2, _⟩ := replaceInFile_frame f info c (rep k)
    (rewriteList rep 0 ((walkResult w.fs.rows root).1.take k) w).2 n hr hn hnk
  have hrun : recursiveSearchReplaceFiles root rep w
      = (Outcome.error e, (replaceInFile f info (rep k)
          (rewriteList rep 0 ((walkResult w.fs.rows root).1.take k) w).2).2) := by
    rw [recursiveSearchReplaceFiles_eq]
    conv_lhs => rw [h1]
    rw [rewriteList_append]
    rcases hres : rewriteList rep 0 ((walkResult w.fs.rows root).1.take k) w with ⟨o, w1⟩
    rw [hres] at hreach hs1 hfail
    simp only at hreach hs1 hfail
    subst hreach
    simp only [Nat.zero_add, h2]
    rw [rewriteList_cons_file rep k f _ w1 info hs1 hnd]
    rcases hres2 : replaceInFile f info (rep k) w1 with ⟨_ | e', w2⟩
    · rw [hres2] at hfail; simp at hfail
    · rw [hres2] at hfail
      simp only [Option.some.injEq] at hfail
      subst hfail
      rfl
  rw [hrun]
  refine ⟨rfl, ?_, ?_⟩
  · intro j q m hj hq hreg hread halias hfree
    simp only
    rw [b2 m.ino (by intro hmi; apply hfree; rw [hop, hmi])]
    obtain ⟨g1, g2, g3⟩ := split_at_index hj
    rw [g3] at halias
    rw [g1] at hreach ⊢
    have := rewriteList_content rep _ _ q w m hq hreg hread
      (fun f hf => halias f (List.mem_append_left _ hf))
      (fun f hf => halias f (List.mem_append_right _ hf)) hreach
    rw [g2] at this
    exact this
  · intro i hpre hfree
    simp only
    rw [b2 i (by intro hi; apply hfree; rw [hop, hi]), a2 i hpre]

/-- Claim C7 at the tree `r/a.txt`, `r/b.txt`, `r/c.txt` with the entry `$A -> x`, once with
`b.txt` not writable and once with `b.txt` on a full disk, where the write fails after the
truncation: the call returns the error of the write, `a.txt` holds `x`, and `c.txt` still
holds `$A`. -/
theorem failed_write_stops_without_rollback_witness :
    ((recursiveSearchReplaceFiles (ascii "r") (always [(ascii "$A", ascii "x")])
        ⟨threeFileTree (readOnlyFile 3), []⟩).1 = Outcome.error Errno.EACCES
      ∧ (recursiveSearchReplaceFiles (ascii "r") (always [(ascii "$A", ascii "x")])
          ⟨threeFileTree (readOnlyFile 3), []⟩).2.fs.content 2
        = applyAll [(ascii "$A", ascii "x")] ((threeFileTree (readOnlyFile 3)).content 2)
      ∧ (recursiveSearchReplaceFiles (ascii "r") (always [(ascii "$A", ascii "x")])
          ⟨threeFileTree (readOnlyFile 3), []⟩).2.fs.content 4
        = (threeFileTree (readOnlyFile 3)).content 4)
      ∧ ((recursiveSearchReplaceFiles (ascii "r") (always [(ascii "$A", ascii "x")])
          ⟨threeFileTree (fullDiskFile 3), []⟩).1 = Outcome.error Errno.ENOSPC
        ∧ (recursiveSearchReplaceFiles (ascii "r") (always [(ascii "$A", ascii "x")])
            ⟨threeFileTree (fullDiskFile 3), []⟩).2.fs.content 2
          = applyAll [(ascii "$A", ascii "x")] ((threeFileTree (fullDiskFile 3)).content 2)
        ∧ (recursiveSearchReplaceFiles (ascii "r") (always [(ascii "$A", ascii "x")])
            ⟨threeFileTree (fullDiskFile 3), []⟩).2.fs.content 4
          = (threeFileTree (fullDiskFile 3)).content 4)
      ∧ (recursiveSearchReplaceFiles (ascii "r") (always [(ascii "$A", ascii "x")])
          ⟨threeFileTree (fullDiskFile 3), []⟩).2.fs.content 3 = []
      ∧ (threeFileTree (fullDiskFile 3)).content 4 = ascii "$A"
      ∧ applyAll [(ascii "$A", ascii "x")] (ascii "$A") = ascii "x" :=
  have h1 := failed_write_stops_without_rollback (ascii "r") (always [(ascii "$A", ascii "x")])
    ⟨threeFileTree (readOnlyFile 3), []⟩ 2 (ascii "r/b.txt") ⟨Kind.regular, 0o444⟩
    Errno.EACCES (by decide) (by decide) (by decide) (by decide) (by decide)
  have h2 := failed_write_stops_without_rollback (ascii "r") (always [(ascii "$A", ascii "x")])
    ⟨threeFileTree (fullDiskFile 3), []⟩ 2 (ascii "r/b.txt") ⟨Kind.regular, 0o644⟩
    Errno.ENOSPC (by decide) (by decide) (by decide) (by decide) (by decide)
  ⟨⟨h1.1,
      h1.2.1 1 (ascii "r/a.txt") (regularFile 2) (by decide) (by decide) (by decide)
        (by decide) (by decide) (by decide),
      h1.2.2 4 (by decide) (by decide)⟩,
    ⟨h2.1,
      h2.2.1 1 (ascii "r/a.txt") (regularFile 2) (by decide) (by decide) (by decide)
        (by decide) (by decide) (by decide),
      h2.2.2 4 (by decide) (by decide)⟩,
    by decide, by decide, by decide⟩

/-- Claim C7 fails as stated: in the tree `r/a`, `r/b.txt`, `r/c.txt` with `a` a symbolic
link to `c.txt` and `b.txt` not writable, the walk lists `a`, `b.txt`, `c.txt` in this order;
the write to `b.txt`, the first regular file, fails and the call returns that error, yet
`c.txt`, which comes after it, no longer holds its original content `$A`: it was rewritten
through the link before the failure. -/
theorem later_file_rewritten_before_failure :
    (walkResult failingAliasTree.rows (ascii "r")).1
        = [ascii "r", ascii "r/a", ascii "r/b.txt", ascii "r/c.txt"]
      ∧ (recursiveSearchReplaceFiles (ascii "r") (always [(ascii "$A", ascii "x")])
          ⟨failingAliasTree, []⟩).1 = Outcome.error Errno.EACCES
      ∧ (recursiveSearchReplaceFiles (ascii "r") (always [(ascii "$A", ascii "x")])
          ⟨failingAliasTree, []⟩).2.trace.getLast?
        = some (Event.writeFile (ascii "r/b.txt") (ascii "x"))
      ∧ failingAliasTree.rows.lookup (ascii "r/c.txt") = some (regularFile 4)
      ∧ failingAliasTree.content 4 = ascii "$A"
      ∧ (recursiveSearchReplaceFiles (ascii "r") (always [(ascii "$A", ascii "x")])
          ⟨failingAliasTree, []⟩).2.fs.content 4 = ascii "x" := by
  decide

/-- Claim C8, the code at the failing input: the root `r` exists and holds one symbolic link
whose target does not exist; `os.Stat` of the link fails, and the call with the empty
replacement set panics on the nil `FileInfo` instead of returning `nil`. -/
theorem empty_replacers_panic_on_dangling_link :
    osLstat danglingTree.rows (ascii "r") = (some ⟨Kind.dir, 0o755⟩, none)
      ∧ (walkResult danglingTree.rows (ascii "r")).1 = [ascii "r", ascii "r/l"]
      ∧ osStat danglingTree.rows (ascii "r/l") = (none, some Errno.ENOENT)
      ∧ recursiveSearchReplaceFiles (ascii "r") (always []) ⟨danglingTree, []⟩
        = (Outcome.panic, ⟨danglingTree, []⟩) := by
  decide

/-- Claim C9. When the target path splits on `/` into at least two segments, both index
expressions of `main` are in bounds, `repoName` is the last segment and `repoUser` the
second-to-last one; with fewer than two segments the index of `repoUser` is out of range and
`main` panics there. -/
theorem identity_is_last_two_segments (dir : Bytes) :
    (2 ≤ (stringsSplit dir (ascii "/")).length →
        ∃ repoUser repoName,
          (stringsSplit dir (ascii "/")).getLast? = some repoName
            ∧ (stringsSplit dir (ascii "/")).dropLast.getLast? = some repoUser
            ∧ goIndex (stringsSplit dir (ascii "/"))
                (((stringsSplit dir (ascii "/")).length : Int) - 1) = some repoName
            ∧ goIndex (stringsSplit dir (ascii "/"))
                (((stringsSplit dir (ascii "/")).length : Int) - 2) = some repoUser
            ∧ repoIdentity dir = some (repoUser, repoName))
      ∧ ((stringsSplit dir (ascii "/")).length < 2 →
          goIndex (stringsSplit dir (ascii "/"))
              (((stringsSplit dir (ascii "/")).length : Int) - 2) = none
            ∧ repoIdentity dir = none) := by
  refine ⟨repoIdentity_of_two_segments dir, ?_⟩
  intro h
  generalize hc : stringsSplit dir (ascii "/") = chunks at h ⊢
  have h2 := goIndex_out_of_range chunks h
  refine ⟨h2, ?_⟩
  unfold repoIdentity
  simp only [hc, h2]
  cases goIndex chunks ((chunks.length : Int) - 1) <;> rfl

/-- Claim C9 at the scenario of the specification, `acme/widgets`, and at the one-segment
path `widgets`. -/
theorem identity_is_last_two_segments_witness :
    stringsSplit (ascii "acme/widgets") (ascii "/") = [ascii "acme", ascii "widgets"]
      ∧ repoIdentity (ascii "acme/widgets") = some (ascii "acme", ascii "widgets")
      ∧ stringsSplit (ascii "widgets") (ascii "/") = [ascii "widgets"]
      ∧ repoIdentity (ascii "widgets") = none :=
  ⟨by decide,
    by
      obtain ⟨u, n, h1, h2, _, _, h5⟩ :=
        (identity_is_last_two_segments (ascii "acme/widgets")).1 (by decide)
      have e1 : (stringsSplit (ascii "acme/widgets") (ascii "/")).getLast?
          = some (ascii "widgets") := by decide
      have e2 : (stringsSplit (ascii "acme/widgets") (ascii "/")).dropLast.getLast?
          = some (ascii "acme") := by decide
      rw [e1] at h1
      rw [e2] at h2
      cases h1
      cases h2
      exact h5,
    by decide,
    ((identity_is_last_two_segments (ascii "widgets")).2 (by decide)).2⟩

/-- Claim C10. Let the target path have at least two segments and the lookup of the current
user succeed. Then the actions `main` performs are the steps of the pipeline up to and
including the first fatal step that fails, nothing after it; the run ends in failure exactly
when some fatal step fails; and it ends with status zero exactly when directory creation,
template copy, tree rewrite, installation of the migrate tool, both migrations and the
dependency fetch all succeed, whatever `dropdb`, `createdb` and the test run do. -/
theorem main_fails_iff_fatal_step_fails (env : Env) (dir u : Bytes)
    (hseg : 2 ≤ (stringsSplit dir (ascii "/")).length) (hu : env.currentUser = some u) :
    ∃ repoUser repoName, repoIdentity dir = some (repoUser, repoName)
      ∧ (main env dir).2.actions = stopAtFailure (pipeline env dir repoUser repoName u)
      ∧ ((main env dir).1 ≠ Exit.success ↔
          ∃ s ∈ pipeline env dir repoUser repoName u, s.2 = true)
      ∧ ((main env dir).1 = Exit.success ↔
          env.mkdirAll (env.fullpath dir) = none
            ∧ env.run [ascii "cp", ascii "-rf", ascii "./blank/", env.fullpath dir] none = true
            ∧ (recursiveSearchReplaceFiles (env.fullpath dir)
                (mainReplacers env repoUser repoName) ⟨env.copied, []⟩).1 = Outcome.ok
            ∧ env.run [ascii "go", ascii "get", ascii "github.com/mattes/migrate"] none = true
            ∧ env.run [ascii "migrate", ascii "-url", pgDSN u repoName, ascii "-path",
                filepathJoin [env.fullpath dir, ascii "migrations"], ascii "up"] none = true
            ∧ env.run [ascii "migrate", ascii "-url", pgDSN u (repoName ++ ascii "-test"),
                ascii "-path", filepathJoin [env.fullpath dir, ascii "migrations"], ascii "up"] none = true
            ∧ env.run [ascii "go", ascii "get", ascii "./..."] (some (env.fullpath dir))
                = true) := by
  obtain ⟨repoUser, repoName, _, _, _, _, hid⟩ := repoIdentity_of_two_segments dir hseg
  have hd : dir ≠ [] := by
    intro h
    subst h
    rw [split_empty_dir] at hseg
    simp at hseg
  obtain ⟨h1, h2⟩ := main_pipeline env dir repoUser repoName u hid hd hu
  refine ⟨repoUser, repoName, hid, h1, h2, ?_⟩
  rw [← not_iff_not]
  refine Iff.trans h2 ?_
  simp only [pipeline, List.mem_cons, List.mem_singleton, List.not_mem_nil, or_false,
    exists_eq_or_imp, exists_eq_left, Bool.not_eq_true', decide_eq_true_eq,
    Option.isSome_iff_ne_none, ne_eq, Bool.false_eq_true, false_or, or_false, not_and_or,
    not_or, Bool.not_eq_true, Decidable.not_not]

/-- Claim C10 at the path `acme/widgets` in a world where `dropdb`, `createdb` and the test
run fail and everything else works: the run ends with status zero. -/
theorem main_fails_iff_fatal_step_fails_witness :
    2 ≤ (stringsSplit (ascii "acme/widgets") (ascii "/")).length
      ∧ (main (sampleEnv [[ascii "dropdb", ascii "widgets"], [ascii "createdb", ascii "widgets"],
          [ascii "go", ascii "test", ascii "./..."]]) (ascii "acme/widgets")).1 = Exit.success
      ∧ ∃ repoUser repoName, repoIdentity (ascii "acme/widgets") = some (repoUser, repoName)
        ∧ (main (sampleEnv [[ascii "dropdb", ascii "widgets"],
            [ascii "createdb", ascii "widgets"], [ascii "go", ascii "test", ascii "./..."]])
            (ascii "acme/widgets")).2.actions
          = stopAtFailure (pipeline (sampleEnv [[ascii "dropdb", ascii "widgets"],
              [ascii "createdb", ascii "widgets"], [ascii "go", ascii "test", ascii "./..."]])
              (ascii "acme/widgets") repoUser repoName (ascii "me")) := by
  have h := main_fails_iff_fatal_step_fails
    (sampleEnv [[ascii "dropdb", ascii "widgets"], [ascii "createdb", ascii "widgets"],
      [ascii "go", ascii "test", ascii "./..."]]) (ascii "acme/widgets") (ascii "me")
    (by decide) rfl
  obtain ⟨ru, rn, hid, hact, _, _⟩ := h
  exact ⟨by decide, by decide, ru, rn, hid, hact⟩

end GoBootstrap
